import Mathlib

set_option maxHeartbeats 1000000

/-! Shallow embedding of the BridgeIt game engine (src/src/board.py, src/src/game.py,
src/src/player.py).  Nodes are integer coordinate pairs, edges are canonicalized node
pairs, and the edge dictionary is modelled as an insertion-ordered association list
with Python dict semantics (lookup finds the first matching key, assignment replaces
in place or appends). -/

/-- A grid node: an integer coordinate pair (row, col). -/
abbrev GNode := Int × Int

/-- An edge: a canonicalized pair of nodes. -/
abbrev GEdge := GNode × GNode

/-- Occupancy state of an edge (board.py, class EdgeState). -/
inductive EdgeState where
  | EMPTY
  | PLAYER1
  | PLAYER2
deriving DecidableEq, Repr

/-- Python dict lookup on an association list: first entry with the given key. -/
def dictGet : List (GEdge × EdgeState) → GEdge → Option EdgeState
  | [], _ => none
  | (k1, v1) :: rest, k => if k1 = k then some v1 else dictGet rest k

/-- Python dict lookup with default (dict.get). -/
def dictGetD (d : List (GEdge × EdgeState)) (k : GEdge) (dflt : EdgeState) : EdgeState :=
  (dictGet d k).getD dflt

/-- Python dict assignment: replace the value at an existing key in place, else append. -/
def dictSet : List (GEdge × EdgeState) → GEdge → EdgeState → List (GEdge × EdgeState)
  | [], k, v => [(k, v)]
  | (k1, v1) :: rest, k, v =>
    if k1 = k then (k1, v) :: rest else (k1, v1) :: dictSet rest k v

/-- Python range(n) for an int argument, as a list of ints. -/
def intRange (n : Int) : List Int := (List.range n.toNat).map (fun i : Nat => (i : Int))

/-- The board (board.py, class Board): dimensions plus the edge dictionary. -/
structure Board where
  rows : Int
  cols : Int
  edges : List (GEdge × EdgeState)
deriving DecidableEq, Repr

/-- Board._normalize_edge: order the two nodes by the Python tuple order. -/
def normalize_edge (node1 node2 : GNode) : GEdge :=
  if node1.1 < node2.1 ∨ (node1.1 = node2.1 ∧ node1.2 < node2.2)
  then (node1, node2) else (node2, node1)

/-- The edges contributed by one loop iteration of Board._initialize_edges:
the rightward edge when col < cols - 1 and the downward edge when row < rows - 1. -/
def cellEdges (rows cols row col : Int) : List GEdge :=
  (if col < cols - 1 then [normalize_edge (row, col) (row, col + 1)] else []) ++
  (if row < rows - 1 then [normalize_edge (row, col) (row + 1, col)] else [])

/-- All edge keys inserted by Board._initialize_edges, in insertion order. -/
def pairList (rows cols : Int) : List GEdge :=
  (intRange rows).flatMap (fun row =>
    (intRange cols).flatMap (fun col => cellEdges rows cols row col))

/-- Board._initialize_edges: insert every generated edge with state EMPTY. -/
def initEdges (rows cols : Int) : List (GEdge × EdgeState) :=
  (pairList rows cols).foldl (fun d e => dictSet d e EdgeState.EMPTY) []

/-- Board.__init__. -/
def mkBoard (rows cols : Int) : Board :=
  { rows := rows, cols := cols, edges := initEdges rows cols }

/-- Board.is_valid_move: the canonicalized edge is a key of the dict and is EMPTY. -/
def is_valid_move (b : Board) (node1 node2 : GNode) : Bool :=
  decide (dictGet b.edges (normalize_edge node1 node2) = some EdgeState.EMPTY)

/-- The occupancy marker used for a player id: PLAYER1 iff the id equals 1,
PLAYER2 for every other id (board.py writes this inline at each use site). -/
def player_state_of (player : Int) : EdgeState :=
  if player = 1 then EdgeState.PLAYER1 else EdgeState.PLAYER2

/-- Board.place_bridge: returns the updated board and the success flag. -/
def place_bridge (b : Board) (node1 node2 : GNode) (player : Int) : Board × Bool :=
  if is_valid_move b node1 node2 then
    ({ b with edges := dictSet b.edges (normalize_edge node1 node2) (player_state_of player) },
      true)
  else (b, false)

/-- Board.get_edge_state. -/
def get_edge_state (b : Board) (node1 node2 : GNode) : EdgeState :=
  dictGetD b.edges (normalize_edge node1 node2) EdgeState.EMPTY

/-- The direction list of Board.get_neighbors. -/
def directions : List (Int × Int) := [(-1, 0), (1, 0), (0, -1), (0, 1)]

/-- Board.get_neighbors: in-bounds grid neighbors in direction order. -/
def get_neighbors (b : Board) (node : GNode) : List GNode :=
  directions.filterMap (fun d =>
    let nr := node.1 + d.1
    let nc := node.2 + d.2
    if 0 ≤ nr ∧ nr < b.rows ∧ 0 ≤ nc ∧ nc < b.cols then some (nr, nc) else none)

/-- Board.get_player_edges: all edges whose state is the given player marker. -/
def get_player_edges (b : Board) (player : Int) : List GEdge :=
  (b.edges.filter (fun es => decide (es.2 = player_state_of player))).map (fun es => es.1)

/-- The sequential neighbor loop inside the dfs closure of
Board._has_path_between_sets, threading the shared visited set. -/
def dfsNbs (g : GNode → List GNode → Bool × List GNode) (owned : GNode → GNode → Bool)
    (node : GNode) : List GNode → List GNode → Bool × List GNode
  | [], v => (false, v)
  | nb :: rest, v =>
    if owned node nb then
      match g nb v with
      | (true, v1) => (true, v1)
      | (false, v1) => dfsNbs g owned node rest v1
    else dfsNbs g owned node rest v

/-- The dfs closure of Board._has_path_between_sets.  The Python recursion
terminates because the shared visited set grows; the embedding makes that
explicit with a fuel argument (callers pass enough fuel for every node). -/
def dfs (b : Board) (player : Int) (ends : List GNode) :
    Nat → GNode → List GNode → Bool × List GNode
  | 0, _, v => (false, v)
  | fuel + 1, node, v =>
    if node ∈ v then (false, v)
    else if node ∈ ends then (true, v)
    else
      dfsNbs (dfs b player ends fuel)
        (fun a c => decide (get_edge_state b a c = player_state_of player))
        node (get_neighbors b node) (v ++ [node])

/-- The loop over start nodes in Board._has_path_between_sets: each start node
gets a fresh (cleared) visited set. -/
def loopStarts (b : Board) (ends : List GNode) (player : Int) (fuel : Nat) :
    List GNode → Bool
  | [] => false
  | s :: rest =>
    if (dfs b player ends fuel s []).1 then true else loopStarts b ends player fuel rest

/-- Board._has_path_between_sets. -/
def has_path_between_sets (b : Board) (starts ends : List GNode) (player : Int) : Bool :=
  loopStarts b ends player ((b.rows * b.cols).toNat + 1) starts

/-- The start set of Board.has_winning_path: row 0 for player 1, column 0 otherwise. -/
def start_nodes (b : Board) (player : Int) : List GNode :=
  if player = 1 then (intRange b.cols).map (fun col => ((0 : Int), col))
  else (intRange b.rows).map (fun row => (row, (0 : Int)))

/-- The target set of Board.has_winning_path: the last row for player 1,
the last column otherwise. -/
def end_nodes (b : Board) (player : Int) : List GNode :=
  if player = 1 then (intRange b.cols).map (fun col => (b.rows - 1, col))
  else (intRange b.rows).map (fun row => (row, b.cols - 1))

/-- Board.has_winning_path. -/
def has_winning_path (b : Board) (player : Int) : Bool :=
  has_path_between_sets b (start_nodes b player) (end_nodes b player) player

/-- Player type (player.py, class PlayerType). -/
inductive PlayerType where
  | HUMAN
  | AI
deriving DecidableEq, Repr

/-- Player record (player.py, class Player). -/
structure Player where
  player_id : Int
  name : String
  color : String
  player_type : PlayerType
  moves_made : Int
deriving DecidableEq, Repr

/-- Game phase (game.py, class GameState). -/
inductive GameState where
  | SETUP
  | PLAYING
  | FINISHED
deriving DecidableEq, Repr

/-- Engine state (game.py, class BridgeItGame). -/
structure BridgeItGame where
  board : Board
  players : List Player
  current_player_index : Int
  game_state : GameState
  winner : Option Player
  move_history : List (GNode × GNode × Int)
deriving DecidableEq, Repr

/-- BridgeItGame.__init__. -/
def newGame (board_rows board_cols : Int) : BridgeItGame :=
  { board := mkBoard board_rows board_cols, players := [], current_player_index := 0,
    game_state := GameState.SETUP, winner := none, move_history := [] }

/-- BridgeItGame.add_player.  The Python method raises ValueError when two players
are already registered; the embedding returns that exception as an Except error. -/
def add_player (g : BridgeItGame) (name color : String) (player_type : PlayerType) :
    Except String (BridgeItGame × Player) :=
  if 2 ≤ g.players.length then Except.error "Game already has 2 players"
  else
    let player : Player :=
      { player_id := (g.players.length : Int) + 1, name := name, color := color,
        player_type := player_type, moves_made := 0 }
    Except.ok ({ g with players := g.players ++ [player] }, player)

/-- BridgeItGame.start_game. -/
def start_game (g : BridgeItGame) : BridgeItGame × Bool :=
  if g.players.length ≠ 2 then (g, false)
  else ({ g with game_state := GameState.PLAYING, current_player_index := 0 }, true)

/-- Python list indexing (negative indices count from the end; out of range is an
IndexError, modelled as none). -/
def pyGet (l : List Player) (i : Int) : Option Player :=
  let j := if i < 0 then i + l.length else i
  if 0 ≤ j then l[j.toNat]? else none

/-- Python list element mutation at an index (used for the aliased counter update). -/
def pySet (l : List Player) (i : Int) (x : Player) : List Player :=
  let j := if i < 0 then i + l.length else i
  if 0 ≤ j then l.set j.toNat x else l

/-- BridgeItGame.get_current_player. -/
def get_current_player (g : BridgeItGame) : Option Player :=
  if g.game_state ≠ GameState.PLAYING ∨ g.players = [] then none
  else pyGet g.players g.current_player_index

/-- BridgeItGame.make_move. -/
def make_move (g : BridgeItGame) (node1 node2 : GNode) : BridgeItGame × Bool :=
  if g.game_state ≠ GameState.PLAYING then (g, false)
  else
    match get_current_player g with
    | none => (g, false)
    | some cp =>
      match place_bridge g.board node1 node2 cp.player_id with
      | (_, false) => (g, false)
      | (b1, true) =>
        let cp1 := { cp with moves_made := cp.moves_made + 1 }
        let g1 := { g with
          board := b1
          move_history := g.move_history ++ [(node1, node2, cp.player_id)]
          players := pySet g.players g.current_player_index cp1 }
        if has_winning_path b1 cp.player_id then
          ({ g1 with winner := some cp1, game_state := GameState.FINISHED }, true)
        else
          ({ g1 with current_player_index := 1 - g1.current_player_index }, true)

/-- The loop in BridgeItGame.undo_last_move that decrements the counter of the
first player whose id matches, then breaks. -/
def decFirst : List Player → Int → List Player
  | [], _ => []
  | p :: rest, pid =>
    if p.player_id = pid then { p with moves_made := p.moves_made - 1 } :: rest
    else p :: decFirst rest pid

/-- BridgeItGame.undo_last_move. -/
def undo_last_move (g : BridgeItGame) : BridgeItGame × Bool :=
  if g.move_history = [] ∨ g.game_state = GameState.FINISHED then (g, false)
  else
    match g.move_history.getLast? with
    | none => (g, false)
    | some (node1, node2, pid) =>
      ({ g with
          board := { g.board with
                      edges := dictSet g.board.edges (normalize_edge node1 node2)
                        EdgeState.EMPTY },
          move_history := g.move_history.dropLast,
          players := decFirst g.players pid,
          current_player_index := 1 - g.current_player_index }, true)

/-- BridgeItGame.reset_game. -/
def reset_game (g : BridgeItGame) : BridgeItGame :=
  { g with board := mkBoard g.board.rows g.board.cols,
           current_player_index := 0,
           game_state := if g.players.length ≠ 2 then GameState.SETUP
                         else GameState.PLAYING,
           winner := none,
           move_history := [],
           players := g.players.map (fun p => { p with moves_made := 0 }) }

/-- Number of edges currently owned by either player. -/
def countOwned (b : Board) : Nat :=
  (b.edges.filter (fun es => decide (es.2 ≠ EdgeState.EMPTY))).length

/-- Number of non-EMPTY entries in an edge dict. -/
def countNE (d : List (GEdge × EdgeState)) : Nat :=
  (d.filter (fun es => decide (es.2 ≠ EdgeState.EMPTY))).length

/-! In-bounds node list and the unvisited-count measure for the DFS. -/

/-- All in-bounds nodes of a board. -/
def allNodes (b : Board) : List GNode :=
  (intRange b.rows).flatMap (fun r => (intRange b.cols).map (fun c => (r, c)))

/-- Number of in-bounds nodes not yet visited. -/
def unvis (b : Board) (v : List GNode) : Nat :=
  ((allNodes b).filter (fun n => decide (n ∉ v))).length

/-! Paths through edges of a fixed occupancy state, as vertex lists. -/

/-- One traversal step of the dfs: y is an in-bounds neighbor of x and the
edge between them carries the marker m. -/
def okStep (b : Board) (m : EdgeState) (x y : GNode) : Prop :=
  y ∈ get_neighbors b x ∧ get_edge_state b x y = m

/-- The vertex list l continues a path from x using only okStep moves. -/
def chainOk (b : Board) (m : EdgeState) : GNode → List GNode → Prop
  | _, [] => True
  | x, y :: l => okStep b m x y ∧ chainOk b m y l

/-- Final vertex of the path starting at x with continuation l. -/
def lastOf (x : GNode) (l : List GNode) : GNode := l.getLastD x

/-- There is a path from x to t through edges in state m. -/
def reaches (b : Board) (m : EdgeState) (x t : GNode) : Prop :=
  ∃ l, chainOk b m x l ∧ lastOf x l = t

/-- There is a path from x to t through edges in state m none of whose
vertices lies in A. -/
def reachesAvoid (b : Board) (m : EdgeState) (A : List GNode) (x t : GNode) : Prop :=
  ∃ l, chainOk b m x l ∧ lastOf x l = t ∧ ∀ u ∈ x :: l, u ∉ A

/-! Board validity: every stored edge key joins in-bounds nodes.  Constructed
boards satisfy this and recoloring preserves it. -/

def EdgeKeysValid (b : Board) : Prop :=
  ∀ kv ∈ b.edges, kv.1.1 ∈ allNodes b ∧ kv.1.2 ∈ allNodes b

/-! Engine reachability and the game invariant. -/

/-- Player id recorded in a history entry. -/
def histPid (e : GNode × GNode × Int) : Int := e.2.2

/-- Canonicalized edge of a history entry. -/
def histEdge (e : GNode × GNode × Int) : GEdge := normalize_edge e.1 e.2.1

/-- Engine states reachable from a freshly started two-player game by the
engine operations makeMove, undoLastMove and resetGame. -/
inductive Reachable : BridgeItGame → Prop where
  | init (rows cols : Int) (n1 c1 n2 c2 : String) (t1 t2 : PlayerType)
      (g1 : BridgeItGame) (p1 : Player) (g2 : BridgeItGame) (p2 : Player)
      (g3 : BridgeItGame)
      (h1 : add_player (newGame rows cols) n1 c1 t1 = Except.ok (g1, p1))
      (h2 : add_player g1 n2 c2 t2 = Except.ok (g2, p2))
      (h3 : start_game g2 = (g3, true)) : Reachable g3
  | move (g : BridgeItGame) (a c : GNode) (h : Reachable g) : Reachable (make_move g a c).1
  | undo (g : BridgeItGame) (h : Reachable g) : Reachable (undo_last_move g).1
  | reset (g : BridgeItGame) (h : Reachable g) : Reachable (reset_game g)

/-- The inductive invariant of reachable engine states. -/
structure GInv (g : BridgeItGame) : Prop where
  state_ok : g.game_state = GameState.PLAYING ∨ g.game_state = GameState.FINISHED
  players_ok : ∃ a b : Player, g.players = [a, b] ∧ a.player_id = 1 ∧ b.player_id = 2 ∧
    a.moves_made = (g.move_history.countP (fun e => decide (histPid e = 1)) : Int) ∧
    b.moves_made = (g.move_history.countP (fun e => decide (histPid e = 2)) : Int)
  hist_alt : ∀ (i : Nat) (h : i < g.move_history.length),
    histPid (g.move_history[i]) = if i % 2 = 0 then 1 else 2
  turn_parity : g.game_state = GameState.PLAYING →
    g.current_player_index = ((g.move_history.length % 2 : Nat) : Int)
  keys_ok : g.board.edges.map Prod.fst = pairList g.board.rows g.board.cols
  hist_edges : ∀ e ∈ g.move_history,
    dictGet g.board.edges (histEdge e) = some (player_state_of (histPid e))
  hist_nodup : (g.move_history.map histEdge).Nodup
  count_ok : countOwned g.board = g.move_history.length

/-! Concrete two-player 3x3 scenario used by several claims. -/

def pAlice : Player := ⟨1, "Alice", "red", PlayerType.HUMAN, 0⟩

def pBob : Player := ⟨2, "Bob", "blue", PlayerType.HUMAN, 0⟩

/-- The started 3x3 game with players Alice (player 1) and Bob (player 2). -/
def game0 : BridgeItGame := ⟨mkBoard 3 3, [pAlice, pBob], 0, GameState.PLAYING, none, []⟩

/-- After player 1 places (0,0)-(1,0). -/
def game1 : BridgeItGame := (make_move game0 (0, 0) (1, 0)).1

/-- After player 2 places (0,1)-(0,2). -/
def game2 : BridgeItGame := (make_move game1 (0, 1) (0, 2)).1

/-- After player 1 places (1,0)-(2,0), completing a top-to-bottom path. -/
def game3 : BridgeItGame := (make_move game2 (1, 0) (2, 0)).1

/-! Association-list (Python dict) lemmas. -/

theorem dictGet_dictSet_self (d : List (GEdge × EdgeState)) (k : GEdge) (v : EdgeState) :
    dictGet (dictSet d k v) k = some v := by
  induction d with
  | nil => simp [dictGet, dictSet]
  | cons kv rest ih =>
    obtain ⟨k1, v1⟩ := kv
    by_cases h : k1 = k
    · simp [dictGet, dictSet, h]
    · simp [dictGet, dictSet, h, ih]

theorem dictGet_dictSet_ne (d : List (GEdge × EdgeState)) {k k2 : GEdge} (v : EdgeState)
    (h : k2 ≠ k) : dictGet (dictSet d k v) k2 = dictGet d k2 := by
  have hne : ¬ k = k2 := fun hh => h hh.symm
  induction d with
  | nil => simp [dictGet, dictSet, hne]
  | cons kv rest ih =>
    obtain ⟨k1, v1⟩ := kv
    by_cases h1 : k1 = k
    · subst h1
      simp [dictGet, dictSet, hne]
    · simp only [dictSet, if_neg h1]
      by_cases h2 : k1 = k2
      · simp [dictGet, h2]
      · simp [dictGet, h2, ih]

theorem dictSet_dictSet_cancel {d : List (GEdge × EdgeState)} {k : GEdge} {w : EdgeState}
    (v : EdgeState) (h : dictGet d k = some w) : dictSet (dictSet d k v) k w = d := by
  induction d with
  | nil => simp [dictGet] at h
  | cons kv rest ih =>
    obtain ⟨k1, v1⟩ := kv
    by_cases h1 : k1 = k
    · simp only [dictGet, if_pos h1] at h
      injection h with h
      simp [dictSet, h1, h]
    · simp only [dictGet, if_neg h1] at h
      simp [dictSet, h1, ih h]

theorem map_fst_dictSet {d : List (GEdge × EdgeState)} {k : GEdge} {w : EdgeState}
    (v : EdgeState) (h : dictGet d k = some w) :
    (dictSet d k v).map Prod.fst = d.map Prod.fst := by
  induction d with
  | nil => simp [dictGet] at h
  | cons kv rest ih =>
    obtain ⟨k1, v1⟩ := kv
    by_cases h1 : k1 = k
    · simp [dictSet, h1]
    · simp only [dictGet, if_neg h1] at h
      simp [dictSet, h1, ih h]

theorem dictGet_mem {d : List (GEdge × EdgeState)} {k : GEdge} {w : EdgeState}
    (h : dictGet d k = some w) : (k, w) ∈ d := by
  induction d with
  | nil => simp [dictGet] at h
  | cons kv rest ih =>
    obtain ⟨k1, v1⟩ := kv
    by_cases h1 : k1 = k
    · simp only [dictGet, if_pos h1] at h
      injection h with h
      subst h1 h
      exact List.mem_cons_self _ _
    · simp only [dictGet, if_neg h1] at h
      exact List.mem_cons_of_mem _ (ih h)

theorem dictGet_eq_none_iff (d : List (GEdge × EdgeState)) (k : GEdge) :
    dictGet d k = none ↔ k ∉ d.map Prod.fst := by
  induction d with
  | nil => simp [dictGet]
  | cons kv rest ih =>
    obtain ⟨k1, v1⟩ := kv
    by_cases h1 : k1 = k
    · simp [dictGet, h1]
    · have hne : ¬ k = k1 := fun hh => h1 hh.symm
      simp [dictGet, h1, ih, hne]

theorem dictSet_of_not_mem {d : List (GEdge × EdgeState)} {k : GEdge}
    (h : k ∉ d.map Prod.fst) (v : EdgeState) : dictSet d k v = d ++ [(k, v)] := by
  induction d with
  | nil => simp [dictSet]
  | cons kv rest ih =>
    obtain ⟨k1, v1⟩ := kv
    simp only [List.map_cons, List.mem_cons] at h
    push_neg at h
    have hne : ¬ k1 = k := fun hh => h.1 hh.symm
    simp [dictSet, hne, ih h.2]

theorem countOwned_eq_countNE (b : Board) : countOwned b = countNE b.edges := rfl

theorem countNE_cons (kv : GEdge × EdgeState) (d : List (GEdge × EdgeState)) :
    countNE (kv :: d) = (if kv.2 ≠ EdgeState.EMPTY then 1 else 0) + countNE d := by
  simp only [countNE, List.filter_cons]
  split <;> simp_all <;> omega

theorem countNE_dictSet_fill {d : List (GEdge × EdgeState)} {k : GEdge}
    (h : dictGet d k = some EdgeState.EMPTY) {v : EdgeState} (hv : v ≠ EdgeState.EMPTY) :
    countNE (dictSet d k v) = countNE d + 1 := by
  induction d with
  | nil => simp [dictGet] at h
  | cons kv rest ih =>
    obtain ⟨k1, v1⟩ := kv
    by_cases h1 : k1 = k
    · simp only [dictGet, if_pos h1] at h
      injection h with h
      subst h
      simp [dictSet, h1, countNE_cons, hv] <;> omega
    · simp only [dictGet, if_neg h1] at h
      simp only [dictSet, if_neg h1, countNE_cons, ih h]
      omega

theorem countNE_dictSet_clear {d : List (GEdge × EdgeState)} {k : GEdge} {w : EdgeState}
    (h : dictGet d k = some w) (hw : w ≠ EdgeState.EMPTY) :
    countNE (dictSet d k EdgeState.EMPTY) + 1 = countNE d := by
  induction d with
  | nil => simp [dictGet] at h
  | cons kv rest ih =>
    obtain ⟨k1, v1⟩ := kv
    by_cases h1 : k1 = k
    · simp only [dictGet, if_pos h1] at h
      injection h with h
      subst h
      simp [dictSet, h1, countNE_cons, hw] <;> omega
    · simp only [dictGet, if_neg h1] at h
      simp only [dictSet, if_neg h1, countNE_cons]
      have hh := ih h
      omega

theorem player_state_of_ne_empty (p : Int) : player_state_of p ≠ EdgeState.EMPTY := by
  unfold player_state_of
  split <;> simp

/-! intRange lemmas. -/

theorem mem_intRange {x n : Int} : x ∈ intRange n ↔ 0 ≤ x ∧ x < n := by
  rw [intRange, List.mem_map]
  constructor
  · rintro ⟨i, hi, rfl⟩
    rw [List.mem_range] at hi
    omega
  · rintro ⟨h0, hn⟩
    exact ⟨x.toNat, by rw [List.mem_range]; omega, by omega⟩

theorem length_intRange (n : Int) : (intRange n).length = n.toNat := by
  rw [intRange, List.length_map, List.length_range]

theorem nodup_intRange (n : Int) : (intRange n).Nodup := by
  rw [intRange]
  refine List.Nodup.map ?_ (List.nodup_range n.toNat)
  intro a b h
  simpa using h

/-! normalize_edge lemmas. -/

theorem normalize_edge_cases (a c : GNode) :
    normalize_edge a c = (a, c) ∨ normalize_edge a c = (c, a) := by
  unfold normalize_edge
  split <;> simp

/-! get_neighbors lemmas. -/

theorem mem_get_neighbors_bounds {b : Board} {x y : GNode} (h : y ∈ get_neighbors b x) :
    0 ≤ y.1 ∧ y.1 < b.rows ∧ 0 ≤ y.2 ∧ y.2 < b.cols := by
  simp only [get_neighbors, List.mem_filterMap] at h
  obtain ⟨d, _, hf⟩ := h
  split at hf
  · injection hf with hf
    subst hf
    assumption
  · exact absurd hf (by simp)

theorem mem_get_neighbors_ne {b : Board} {x y : GNode} (h : y ∈ get_neighbors b x) :
    y ≠ x := by
  simp only [get_neighbors, directions, List.mem_filterMap] at h
  obtain ⟨d, hd, hf⟩ := h
  split at hf
  · injection hf with hf
    subst hf
    intro hc
    rw [Prod.ext_iff] at hc
    fin_cases hd <;> norm_num at hc
  · exact absurd hf (by simp)

theorem mem_allNodes {b : Board} {x : GNode} :
    x ∈ allNodes b ↔ 0 ≤ x.1 ∧ x.1 < b.rows ∧ 0 ≤ x.2 ∧ x.2 < b.cols := by
  obtain ⟨r, c⟩ := x
  simp only [allNodes, List.mem_flatMap, List.mem_map, mem_intRange, Prod.mk.injEq]
  constructor
  · rintro ⟨a, ha, cc, hc, rfl, rfl⟩
    exact ⟨ha.1, ha.2, hc.1, hc.2⟩
  · rintro ⟨h1, h2, h3, h4⟩
    exact ⟨r, ⟨h1, h2⟩, c, ⟨h3, h4⟩, rfl, rfl⟩

theorem mem_get_neighbors_allNodes {b : Board} {x y : GNode} (h : y ∈ get_neighbors b x) :
    y ∈ allNodes b := mem_allNodes.mpr (mem_get_neighbors_bounds h)

theorem length_allNodes (b : Board) : (allNodes b).length = b.rows.toNat * b.cols.toNat := by
  simp [allNodes, List.length_flatMap, Function.comp_def, length_intRange, intRange,
    List.map_map, List.map_const', List.sum_replicate, Nat.smul_one_eq_cast]

theorem length_filter_mono {α : Type} (l : List α) (p q : α → Bool)
    (h : ∀ a ∈ l, p a = true → q a = true) :
    (l.filter p).length ≤ (l.filter q).length := by
  induction l with
  | nil => simp
  | cons a rest ih =>
    have ih' := ih (fun x hx => h x (List.mem_cons_of_mem _ hx))
    by_cases hp : p a = true
    · have hq := h a (List.mem_cons_self _ _) hp
      simp [List.filter_cons, hp, hq]
      omega
    · simp only [List.filter_cons, hp, if_neg, Bool.not_eq_true] at *
      by_cases hq : q a = true <;> simp [hq] <;> omega

theorem length_filter_strict {α : Type} {l : List α} {p q : α → Bool} {x : α}
    (h : ∀ a ∈ l, p a = true → q a = true) (hx : x ∈ l) (hq : q x = true)
    (hp : p x = false) : (l.filter p).length < (l.filter q).length := by
  induction l with
  | nil => simp at hx
  | cons a rest ih =>
    have hmono := length_filter_mono rest p q (fun z hz => h z (List.mem_cons_of_mem _ hz))
    rcases List.mem_cons.mp hx with rfl | hx'
    · simp [List.filter_cons, hp, hq]
      omega
    · have ih' := ih (fun z hz => h z (List.mem_cons_of_mem _ hz)) hx'
      by_cases hpa : p a = true
      · have hqa := h a (List.mem_cons_self _ _) hpa
        simp [List.filter_cons, hpa, hqa]
        omega
      · simp only [List.filter_cons, hpa, Bool.false_eq_true, if_neg, if_false]
        by_cases hqa : q a = true <;> simp [hqa] <;> omega

theorem unvis_le_of_subset {b : Board} {v1 v2 : List GNode}
    (h : ∀ x ∈ v1, x ∈ v2) : unvis b v2 ≤ unvis b v1 := by
  refine length_filter_mono _ _ _ ?_
  intro a _ ha
  simp only [decide_eq_true_eq] at *
  exact fun hm => ha (h a hm)

theorem unvis_append_lt {b : Board} {v : List GNode} {node : GNode}
    (hmem : node ∈ allNodes b) (hnv : node ∉ v) :
    unvis b (v ++ [node]) < unvis b v := by
  refine length_filter_strict ?_ hmem (by simp [hnv]) (by simp)
  intro a _ ha
  simp only [decide_eq_true_eq, List.mem_append] at *
  exact fun hm => ha (Or.inl hm)

theorem unvis_nil (b : Board) : unvis b [] = b.rows.toNat * b.cols.toNat := by
  rw [← length_allNodes]
  unfold unvis
  congr 1
  apply List.filter_eq_self.mpr
  intro a _
  rw [decide_eq_true_eq]
  exact List.not_mem_nil a

theorem toNat_mul_le (r c : Int) : r.toNat * c.toNat ≤ (r * c).toNat := by
  rcases le_or_lt 0 r with hr | hr
  · rcases le_or_lt 0 c with hc | hc
    · obtain ⟨a, rfl⟩ := Int.eq_ofNat_of_zero_le hr
      obtain ⟨d, rfl⟩ := Int.eq_ofNat_of_zero_le hc
      rw [← Int.natCast_mul, Int.toNat_natCast, Int.toNat_natCast, Int.toNat_natCast]
    · have : c.toNat = 0 := by omega
      simp [this]
  · have : r.toNat = 0 := by omega
    simp [this]

theorem lastOf_cons (x y : GNode) (l : List GNode) : lastOf x (y :: l) = lastOf y l :=
  List.getLastD_cons x y l

theorem reachesAvoid_nil_iff {b : Board} {m : EdgeState} {x t : GNode} :
    reachesAvoid b m [] x t ↔ reaches b m x t := by
  unfold reachesAvoid reaches
  simp

theorem reachesAvoid_weaken {b : Board} {m : EdgeState} {a : GNode} {A : List GNode}
    {x t : GNode} (h : reachesAvoid b m (a :: A) x t) : reachesAvoid b m A x t := by
  obtain ⟨l, hc, hl, hA⟩ := h
  exact ⟨l, hc, hl, fun u hu hmem => hA u hu (List.mem_cons_of_mem _ hmem)⟩

theorem chainOk_split {b : Board} {m : EdgeState} :
    ∀ (l : List GNode) (x u : GNode), chainOk b m x l → u ∈ l →
      ∃ l2, chainOk b m u l2 ∧ lastOf u l2 = lastOf x l ∧ l2.length < l.length ∧
        ∀ z ∈ l2, z ∈ l := by
  intro l
  induction l with
  | nil =>
    intro x u _ hu
    simp at hu
  | cons y rest ih =>
    intro x u hc hu
    rcases List.mem_cons.mp hu with rfl | hu2
    · refine ⟨rest, hc.2, ?_, by simp, fun z hz => List.mem_cons_of_mem _ hz⟩
      rw [lastOf_cons]
    · obtain ⟨l2, h1, h2, h3, h4⟩ := ih y u hc.2 hu2
      refine ⟨l2, h1, ?_, ?_, fun z hz => List.mem_cons_of_mem _ (h4 z hz)⟩
      · rw [h2, lastOf_cons]
      · simp only [List.length_cons]
        omega

theorem dead_of_nbs_dead {b : Board} {m : EdgeState} {ends A : List GNode} {x : GNode}
    (hnb : ∀ y, okStep b m x y → ∀ t ∈ ends, ¬ reachesAvoid b m (x :: A) y t)
    (hxe : x ∉ ends) : ∀ t ∈ ends, ¬ reachesAvoid b m A x t := by
  have main : ∀ (n : Nat) (l : List GNode), l.length ≤ n → chainOk b m x l →
      lastOf x l ∈ ends → (∀ u ∈ x :: l, u ∉ A) → False := by
    intro n
    induction n with
    | zero =>
      intro l hlen hc hl hA
      have hnil : l = [] := List.eq_nil_of_length_eq_zero (by omega)
      subst hnil
      exact hxe hl
    | succ n ihn =>
      intro l hlen hc hl hA
      match l with
      | [] => exact hxe hl
      | y :: rest =>
        have hstep : okStep b m x y := hc.1
        have hcr : chainOk b m y rest := hc.2
        rw [lastOf_cons] at hl
        by_cases hxr : x ∈ rest
        · obtain ⟨l2, h1, h2, h3, h4⟩ := chainOk_split rest y x hcr hxr
          refine ihn l2 ?_ h1 ?_ ?_
          · simp only [List.length_cons] at hlen
            omega
          · rw [h2]
            exact hl
          · intro u hu
            rcases List.mem_cons.mp hu with rfl | hu2
            · exact hA u (List.mem_cons_self _ _)
            · exact hA u (List.mem_cons_of_mem _ (List.mem_cons_of_mem _ (h4 u hu2)))
        · refine hnb y hstep (lastOf y rest) hl ⟨rest, hcr, rfl, ?_⟩
          intro u hu hmem
          rcases List.mem_cons.mp hmem with rfl | hmem2
          · rcases List.mem_cons.mp hu with rfl | hu2
            · exact mem_get_neighbors_ne hstep.1 rfl
            · exact hxr hu2
          · exact hA u (List.mem_cons_of_mem _ hu) hmem2
  intro t ht hre
  obtain ⟨l, hc, hl, hA⟩ := hre
  exact main l.length l le_rfl hc (by rw [hl]; exact ht) hA

theorem not_avoid_of_dead {b : Board} {m : EdgeState} {ends A : List GNode} {x : GNode}
    (hdead : ∀ t ∈ ends, ¬ reachesAvoid b m A x t) {u t : GNode} (ht : t ∈ ends)
    (h2 : ¬ reachesAvoid b m (x :: A) u t) : ¬ reachesAvoid b m A u t := by
  rintro ⟨l, hc, hl, hA⟩
  by_cases hx : x ∈ u :: l
  · rcases List.mem_cons.mp hx with rfl | hxl
    · exact hdead t ht ⟨l, hc, hl, hA⟩
    · obtain ⟨l2, h1, h2', _, h4⟩ := chainOk_split l u x hc hxl
      refine hdead t ht ⟨l2, h1, by rw [h2', hl], ?_⟩
      intro z hz
      rcases List.mem_cons.mp hz with rfl | hz2
      · exact hA z (List.mem_cons_of_mem _ hxl)
      · exact hA z (List.mem_cons_of_mem _ (h4 z hz2))
  · refine h2 ⟨l, hc, hl, ?_⟩
    intro z hz hmem
    rcases List.mem_cons.mp hmem with rfl | hz2
    · exact hx hz
    · exact hA z hz hz2

theorem okStep_fst_mem {b : Board} {m : EdgeState} {x y : GNode} (hb : EdgeKeysValid b)
    (hm : m ≠ EdgeState.EMPTY) (h : okStep b m x y) : x ∈ allNodes b := by
  obtain ⟨_, hes⟩ := h
  unfold get_edge_state dictGetD at hes
  cases hg : dictGet b.edges (normalize_edge x y) with
  | none =>
    rw [hg] at hes
    exact absurd hes.symm (by simpa using hm)
  | some w =>
    rw [hg] at hes
    simp only [Option.getD_some] at hes
    subst hes
    have hmem := hb _ (dictGet_mem hg)
    rcases normalize_edge_cases x y with hn | hn <;> rw [hn] at hmem
    · exact hmem.1
    · exact hmem.2

/-! DFS soundness and completeness. -/

theorem dfsNbs_no_owned {g : GNode → List GNode → Bool × List GNode}
    {owned : GNode → GNode → Bool} {node : GNode} :
    ∀ (nbs : List GNode) (v : List GNode), (∀ nb ∈ nbs, owned node nb = false) →
      dfsNbs g owned node nbs v = (false, v) := by
  intro nbs
  induction nbs with
  | nil => intro v _; rfl
  | cons nb rest ih =>
    intro v hno
    have h1 := hno nb (List.mem_cons_self _ _)
    simp only [dfsNbs, h1, Bool.false_eq_true, if_false]
    exact ih v (fun z hz => hno z (List.mem_cons_of_mem _ hz))

theorem dfs_true_reaches {b : Board} {p : Int} {ends : List GNode} :
    ∀ (fuel : Nat) (node : GNode) (v v' : List GNode),
      dfs b p ends fuel node v = (true, v') →
      ∃ t ∈ ends, reaches b (player_state_of p) node t := by
  intro fuel
  induction fuel with
  | zero =>
    intro node v v' h
    simp [dfs] at h
  | succ f ih =>
    intro node v v' h
    simp only [dfs] at h
    by_cases hv : node ∈ v
    · rw [if_pos hv] at h
      exact absurd h (by simp)
    · by_cases he : node ∈ ends
      · exact ⟨node, he, [], trivial, rfl⟩
      · rw [if_neg hv, if_neg he] at h
        have inner : ∀ (nbs : List GNode), (∀ z ∈ nbs, z ∈ get_neighbors b node) →
            ∀ (w w' : List GNode),
              dfsNbs (dfs b p ends f)
                (fun a c => decide (get_edge_state b a c = player_state_of p))
                node nbs w = (true, w') →
              ∃ t ∈ ends, reaches b (player_state_of p) node t := by
          intro nbs
          induction nbs with
          | nil =>
            intro _ w w' hh
            simp [dfsNbs] at hh
          | cons nb rest ihn =>
            intro hsub w w' hh
            have hsub' : ∀ z ∈ rest, z ∈ get_neighbors b node :=
              fun z hz => hsub z (List.mem_cons_of_mem _ hz)
            by_cases ho : (decide (get_edge_state b node nb = player_state_of p)) = true
            · simp only [dfsNbs, ho, if_true] at hh
              cases hr : dfs b p ends f nb w with
              | mk r1 w1 =>
                rw [hr] at hh
                cases r1 with
                | true =>
                  obtain ⟨t, ht, l, hc, hl⟩ := ih nb w w1 hr
                  refine ⟨t, ht, nb :: l, ⟨⟨hsub nb (List.mem_cons_self _ _), of_decide_eq_true ho⟩, hc⟩, ?_⟩
                  rw [lastOf_cons]
                  exact hl
                | false =>
                  exact ihn hsub' w1 w' hh
            · simp only [dfsNbs, ho, Bool.false_eq_true, if_false] at hh
              exact ihn hsub' w w' hh
        exact inner (get_neighbors b node) (fun z hz => hz) _ _ h

theorem dfs_false_spec {b : Board} {p : Int} {ends : List GNode} (hb : EdgeKeysValid b) :
    ∀ (fuel : Nat) (node : GNode) (v v' A : List GNode),
      (∀ u ∈ v, ∀ t ∈ ends, ¬ reachesAvoid b (player_state_of p) A u t) →
      unvis b v < fuel →
      dfs b p ends fuel node v = (false, v') →
      (∀ u ∈ v, u ∈ v') ∧
      (∀ u ∈ v', ∀ t ∈ ends, ¬ reachesAvoid b (player_state_of p) A u t) ∧
      (∀ t ∈ ends, ¬ reachesAvoid b (player_state_of p) A node t) := by
  intro fuel
  induction fuel with
  | zero =>
    intro node v v' A _ hlt _
    exact absurd hlt (by omega)
  | succ f ih =>
    intro node v v' A hinv hlt heq
    simp only [dfs] at heq
    by_cases hv : node ∈ v
    · rw [if_pos hv] at heq
      injection heq with _ h2
      subst h2
      exact ⟨fun u hu => hu, hinv, fun t ht => hinv node hv t ht⟩
    · by_cases he : node ∈ ends
      · rw [if_neg hv, if_pos he] at heq
        exact absurd heq (by simp)
      · rw [if_neg hv, if_neg he] at heq
        have hinv1 : ∀ u ∈ v ++ [node], ∀ t ∈ ends,
            ¬ reachesAvoid b (player_state_of p) (node :: A) u t := by
          intro u hu t ht hre
          rcases List.mem_append.mp hu with hu1 | hu2
          · exact hinv u hu1 t ht (reachesAvoid_weaken hre)
          · have hun : u = node := by simpa using hu2
            subst hun
            obtain ⟨l, _, _, hA⟩ := hre
            exact hA u (List.mem_cons_self _ _) (List.mem_cons_self _ _)
        by_cases hmem : node ∈ allNodes b
        · have hlt1 : unvis b (v ++ [node]) < f := by
            have := unvis_append_lt hmem hv
            omega
          have inner : ∀ (nbs : List GNode) (w w' : List GNode),
              (∀ u ∈ w, ∀ t ∈ ends, ¬ reachesAvoid b (player_state_of p) (node :: A) u t) →
              unvis b w < f →
              dfsNbs (dfs b p ends f)
                (fun a c => decide (get_edge_state b a c = player_state_of p))
                node nbs w = (false, w') →
              (∀ u ∈ w, u ∈ w') ∧ unvis b w' ≤ unvis b w ∧
              (∀ u ∈ w', ∀ t ∈ ends, ¬ reachesAvoid b (player_state_of p) (node :: A) u t) ∧
              (∀ nb ∈ nbs, (decide (get_edge_state b node nb = player_state_of p)) = true →
                ∀ t ∈ ends, ¬ reachesAvoid b (player_state_of p) (node :: A) nb t) := by
            intro nbs
            induction nbs with
            | nil =>
              intro w w' hw _ hh
              simp only [dfsNbs] at hh
              injection hh with _ h2
              subst h2
              exact ⟨fun u hu => hu, le_rfl, hw, by simp⟩
            | cons nb rest ihn =>
              intro w w' hw hwlt hh
              by_cases ho : (decide (get_edge_state b node nb = player_state_of p)) = true
              · simp only [dfsNbs, ho, if_true] at hh
                cases hr : dfs b p ends f nb w with
                | mk r1 w1 =>
                  rw [hr] at hh
                  cases r1 with
                  | true => exact absurd hh (by simp)
                  | false =>
                    obtain ⟨mono1, hinvw1, dead1⟩ := ih nb w w1 (node :: A) hw hwlt hr
                    have hwlt1 : unvis b w1 < f :=
                      lt_of_le_of_lt (unvis_le_of_subset mono1) hwlt
                    obtain ⟨mono2, hle2, hinv2, hdead2⟩ := ihn w1 w' hinvw1 hwlt1 hh
                    refine ⟨fun u hu => mono2 u (mono1 u hu),
                      le_trans hle2 (unvis_le_of_subset mono1), hinv2, ?_⟩
                    intro z hz
                    rcases List.mem_cons.mp hz with rfl | hz2
                    · intro _ t ht
                      exact dead1 t ht
                    · exact hdead2 z hz2
              · simp only [dfsNbs, ho, Bool.false_eq_true, if_false] at hh
                obtain ⟨mono2, hle2, hinv2, hdead2⟩ := ihn w w' hw hwlt hh
                refine ⟨mono2, hle2, hinv2, ?_⟩
                intro z hz
                rcases List.mem_cons.mp hz with rfl | hz2
                · intro hz1
                  exact absurd hz1 (by simp [ho])
                · exact hdead2 z hz2
          obtain ⟨mono, _, hinvv', hdeadnbs⟩ :=
            inner (get_neighbors b node) (v ++ [node]) v' hinv1 hlt1 heq
          have hdead : ∀ t ∈ ends, ¬ reachesAvoid b (player_state_of p) A node t := by
            refine dead_of_nbs_dead ?_ he
            intro y hy t ht
            exact hdeadnbs y hy.1 (decide_eq_true hy.2) t ht
          refine ⟨fun u hu => mono u (List.mem_append.mpr (Or.inl hu)), ?_, hdead⟩
          intro u hu t ht
          exact not_avoid_of_dead hdead ht (hinvv' u hu t ht)
        · have hno : ∀ nb ∈ get_neighbors b node,
              (fun a c => decide (get_edge_state b a c = player_state_of p)) node nb = false := by
            intro nb hnb
            simp only [decide_eq_false_iff_not]
            intro hes
            exact hmem (okStep_fst_mem hb (player_state_of_ne_empty p) ⟨hnb, hes⟩)
          rw [dfsNbs_no_owned _ _ hno] at heq
          injection heq with _ h2
          subst h2
          have hdead : ∀ t ∈ ends, ¬ reachesAvoid b (player_state_of p) A node t := by
            rintro t ht ⟨l, hc, hl, _⟩
            cases l with
            | nil =>
              have : node = t := hl
              subst this
              exact he ht
            | cons y rest =>
              exact hmem (okStep_fst_mem hb (player_state_of_ne_empty p) hc.1)
          refine ⟨fun u hu => List.mem_append.mpr (Or.inl hu), ?_, hdead⟩
          intro u hu t ht
          rcases List.mem_append.mp hu with hu1 | hu2
          · exact hinv u hu1 t ht
          · have hun : u = node := by simpa using hu2
            subst hun
            exact hdead t ht

/-! Top-level connectivity checker specification. -/

theorem loopStarts_true_exists {b : Board} {ends : List GNode} {p : Int} {fuel : Nat} :
    ∀ (starts : List GNode), loopStarts b ends p fuel starts = true →
      ∃ s ∈ starts, (dfs b p ends fuel s []).1 = true := by
  intro starts
  induction starts with
  | nil => intro h; simp [loopStarts] at h
  | cons s rest ih =>
    intro h
    rw [loopStarts] at h
    split at h
    · exact ⟨s, List.mem_cons_self _ _, by assumption⟩
    · obtain ⟨z, hz, hdz⟩ := ih h
      exact ⟨z, List.mem_cons_of_mem _ hz, hdz⟩

theorem loopStarts_false_all {b : Board} {ends : List GNode} {p : Int} {fuel : Nat} :
    ∀ (starts : List GNode), loopStarts b ends p fuel starts = false →
      ∀ s ∈ starts, (dfs b p ends fuel s []).1 = false := by
  intro starts
  induction starts with
  | nil => intro _ s hs; simp at hs
  | cons s rest ih =>
    intro h z hz
    rw [loopStarts] at h
    split at h
    · exact absurd h (by simp)
    · rcases List.mem_cons.mp hz with rfl | hz2
      · simp only [Bool.not_eq_true] at *
        assumption
      · exact ih h z hz2

theorem unvis_nil_lt_fuel (b : Board) : unvis b [] < (b.rows * b.cols).toNat + 1 := by
  rw [unvis_nil]
  have := toNat_mul_le b.rows b.cols
  omega

theorem has_path_between_sets_iff {b : Board} {starts ends : List GNode} {p : Int}
    (hb : EdgeKeysValid b) :
    has_path_between_sets b starts ends p = true ↔
      ∃ s ∈ starts, ∃ t ∈ ends, reaches b (player_state_of p) s t := by
  constructor
  · intro h
    obtain ⟨s, hs, hds⟩ := loopStarts_true_exists starts h
    cases hd : dfs b p ends ((b.rows * b.cols).toNat + 1) s [] with
    | mk r v' =>
      rw [hd] at hds
      subst hds
      obtain ⟨t, ht, hr⟩ := dfs_true_reaches _ s [] v' hd
      exact ⟨s, hs, t, ht, hr⟩
  · rintro ⟨s, hs, t, ht, hr⟩
    by_contra hfalse
    rw [Bool.not_eq_true] at hfalse
    have hall := loopStarts_false_all starts hfalse s hs
    cases hd : dfs b p ends ((b.rows * b.cols).toNat + 1) s [] with
    | mk r v' =>
      rw [hd] at hall
      subst hall
      have hspec := dfs_false_spec hb ((b.rows * b.cols).toNat + 1) s [] v' []
        (by intro u hu; simp at hu) (unvis_nil_lt_fuel b) hd
      exact hspec.2.2 t ht (reachesAvoid_nil_iff.mpr hr)

theorem has_winning_path_iff {b : Board} (hb : EdgeKeysValid b) (p : Int) :
    has_winning_path b p = true ↔
      ∃ s ∈ start_nodes b p, ∃ t ∈ end_nodes b p, reaches b (player_state_of p) s t := by
  unfold has_winning_path
  exact has_path_between_sets_iff hb

theorem get_player_edges_nil_no_okStep {b : Board} {p : Int}
    (h : get_player_edges b p = []) (x y : GNode) : ¬ okStep b (player_state_of p) x y := by
  rintro ⟨_, hes⟩
  unfold get_edge_state dictGetD at hes
  cases hg : dictGet b.edges (normalize_edge x y) with
  | none =>
    rw [hg] at hes
    simp only [Option.getD_none] at hes
    exact player_state_of_ne_empty p hes.symm
  | some w =>
    rw [hg] at hes
    simp only [Option.getD_some] at hes
    subst hes
    have hmem := dictGet_mem hg
    have hin : normalize_edge x y ∈ get_player_edges b p := by
      unfold get_player_edges
      refine List.mem_map.mpr ⟨(normalize_edge x y, player_state_of p), ?_, rfl⟩
      refine List.mem_filter.mpr ⟨hmem, by simp⟩
    rw [h] at hin
    simp at hin

theorem has_winning_path_no_edges {b : Board} {p : Int} (hp : p = 1 ∨ p = 2)
    (hr2 : 2 ≤ b.rows) (hc2 : 2 ≤ b.cols) (h : get_player_edges b p = []) :
    has_winning_path b p = false := by
  by_contra hne
  rw [Bool.not_eq_false] at hne
  unfold has_winning_path at hne
  obtain ⟨s, hs, hds⟩ := loopStarts_true_exists _ hne
  cases hd : dfs b p (end_nodes b p) ((b.rows * b.cols).toNat + 1) s [] with
  | mk r v' =>
    rw [hd] at hds
    subst hds
    obtain ⟨t, ht, l, hc, hl⟩ := dfs_true_reaches _ s [] v' hd
    cases l with
    | cons y rest => exact get_player_edges_nil_no_okStep h s y hc.1
    | nil =>
      have hst : s = t := hl
      subst hst
      rcases hp with rfl | hp2
      · simp only [start_nodes, if_pos rfl] at hs
        simp only [end_nodes, if_pos rfl] at ht
        obtain ⟨c1, _, he1⟩ := List.mem_map.mp hs
        obtain ⟨c2, _, he2⟩ := List.mem_map.mp ht
        rw [← he1] at he2
        have : (0 : Int) = b.rows - 1 := congrArg Prod.fst he2.symm
        omega
      · subst hp2
        rw [start_nodes, if_neg (show ¬(2:Int) = 1 by norm_num)] at hs
        rw [end_nodes, if_neg (show ¬(2:Int) = 1 by norm_num)] at ht
        obtain ⟨c1, _, he1⟩ := List.mem_map.mp hs
        obtain ⟨c2, _, he2⟩ := List.mem_map.mp ht
        rw [← he1] at he2
        have : (0 : Int) = b.cols - 1 := congrArg Prod.snd he2.symm
        omega

/-! Structure of the initialized edge dictionary. -/

theorem cellEdges_eq (rows cols row col : Int) :
    cellEdges rows cols row col =
      (if col < cols - 1 then [((row, col), (row, col + 1))] else []) ++
      (if row < rows - 1 then [((row, col), (row + 1, col))] else []) := by
  unfold cellEdges normalize_edge
  congr 1
  · split
    · congr 1
      rw [if_pos (Or.inr ⟨rfl, by omega⟩)]
    · rfl
  · split
    · congr 1
      rw [if_pos (Or.inl (by omega))]
    · rfl

theorem cellEdges_fst {rows cols row col : Int} {e : GEdge}
    (h : e ∈ cellEdges rows cols row col) : e.1 = (row, col) := by
  rw [cellEdges_eq] at h
  rcases List.mem_append.mp h with h1 | h1 <;>
    · split at h1 <;> simp at h1
      subst h1
      rfl

theorem mem_cellEdges_spec {rows cols row col : Int} {e : GEdge}
    (h : e ∈ cellEdges rows cols row col) :
    (e = ((row, col), (row, col + 1)) ∧ col < cols - 1) ∨
    (e = ((row, col), (row + 1, col)) ∧ row < rows - 1) := by
  rw [cellEdges_eq] at h
  rcases List.mem_append.mp h with h1 | h1 <;> split at h1 <;> simp at h1 <;> subst h1
  · exact Or.inl ⟨rfl, by assumption⟩
  · exact Or.inr ⟨rfl, by assumption⟩

theorem mem_pairList_iff {rows cols : Int} {e : GEdge} :
    e ∈ pairList rows cols ↔
      ∃ row, (0 ≤ row ∧ row < rows) ∧ ∃ col, (0 ≤ col ∧ col < cols) ∧
        e ∈ cellEdges rows cols row col := by
  simp only [pairList, List.mem_flatMap, mem_intRange]

theorem pairList_nodup (rows cols : Int) : (pairList rows cols).Nodup := by
  unfold pairList
  rw [List.nodup_flatMap]
  constructor
  · intro row _
    rw [List.nodup_flatMap]
    constructor
    · intro col _
      rw [cellEdges_eq]
      by_cases h1 : col < cols - 1 <;> by_cases h2 : row < rows - 1 <;>
        simp [h1, h2, Prod.ext_iff] <;> omega
    · have hnd := nodup_intRange cols
      refine hnd.imp ?_
      intro a c hac
      simp only [Function.onFun]
      intro e he1 he2
      have f1 := cellEdges_fst he1
      have f2 := cellEdges_fst he2
      rw [f1] at f2
      exact hac (congrArg Prod.snd f2)
  · have hnd := nodup_intRange rows
    refine hnd.imp ?_
    intro a c hac
    simp only [Function.onFun]
    intro e he1 he2
    obtain ⟨_, _, he1'⟩ := List.mem_flatMap.mp he1
    obtain ⟨_, _, he2'⟩ := List.mem_flatMap.mp he2
    have f1 := cellEdges_fst he1'
    have f2 := cellEdges_fst he2'
    rw [f1] at f2
    exact hac (congrArg Prod.fst f2)

theorem foldl_dictSet_eq : ∀ (l : List GEdge) (acc : List (GEdge × EdgeState)),
    (acc.map Prod.fst ++ l).Nodup →
    l.foldl (fun d e => dictSet d e EdgeState.EMPTY) acc =
      acc ++ l.map (fun e => (e, EdgeState.EMPTY)) := by
  intro l
  induction l with
  | nil =>
    intro acc _
    simp
  | cons e rest ih =>
    intro acc hnd
    have he : e ∉ acc.map Prod.fst := by
      intro hmem
      rw [List.nodup_append] at hnd
      exact hnd.2.2 hmem (List.mem_cons_self _ _)
    rw [List.foldl_cons, dictSet_of_not_mem he]
    have hnd2 : ((acc ++ [(e, EdgeState.EMPTY)]).map Prod.fst ++ rest).Nodup := by
      have : (acc ++ [(e, EdgeState.EMPTY)]).map Prod.fst = acc.map Prod.fst ++ [e] := by
        simp
      rw [this, List.append_assoc]
      exact hnd
    rw [ih _ hnd2]
    simp

theorem initEdges_eq (rows cols : Int) :
    initEdges rows cols = (pairList rows cols).map (fun e => (e, EdgeState.EMPTY)) := by
  unfold initEdges
  rw [foldl_dictSet_eq _ [] (by simpa using pairList_nodup rows cols)]
  simp

theorem dictGet_map_empty (k : GEdge) : ∀ (l : List GEdge),
    dictGet (l.map (fun e => (e, EdgeState.EMPTY))) k =
      if k ∈ l then some EdgeState.EMPTY else none := by
  intro l
  induction l with
  | nil => simp [dictGet]
  | cons e rest ih =>
    by_cases he : e = k
    · subst he
      simp [dictGet]
    · have hne : ¬ k = e := fun hh => he hh.symm
      simp [dictGet, he, ih, hne]

theorem dictGet_initEdges {rows cols : Int} (k : GEdge) :
    dictGet (initEdges rows cols) k =
      if k ∈ pairList rows cols then some EdgeState.EMPTY else none := by
  rw [initEdges_eq, dictGet_map_empty]

theorem EdgeKeysValid_mkBoard (rows cols : Int) : EdgeKeysValid (mkBoard rows cols) := by
  intro kv hkv
  have hkv' : kv ∈ initEdges rows cols := hkv
  rw [initEdges_eq] at hkv'
  obtain ⟨e, he, hkve⟩ := List.mem_map.mp hkv'
  obtain ⟨row, hrow, col, hcol, hcell⟩ := mem_pairList_iff.mp he
  subst hkve
  rcases mem_cellEdges_spec hcell with ⟨rfl, hlt⟩ | ⟨rfl, hlt⟩ <;>
    constructor <;> simp only [mem_allNodes, mkBoard] <;> omega

/-! Edge count of the initialized grid. -/

theorem cellEdges_length (rows cols row col : Int) :
    (cellEdges rows cols row col).length =
      (if col < cols - 1 then 1 else 0) + (if row < rows - 1 then 1 else 0) := by
  rw [cellEdges_eq, List.length_append]
  congr 1 <;> split <;> rfl

theorem row_sum (cols : Int) (c0 : Nat) : ∀ m : Nat,
    ((List.range m).map (fun i : Nat =>
      (if (i : Int) < cols - 1 then 1 else 0) + c0)).sum =
      min (cols - 1).toNat m + m * c0 := by
  intro m
  induction m with
  | zero => simp
  | succ m ihm =>
    rw [List.range_succ, List.map_append, List.sum_append, ihm]
    by_cases h : (m : Int) < cols - 1
    · have h1 : min (cols - 1).toNat (m + 1) = min (cols - 1).toNat m + 1 := by omega
      rw [h1]
      simp only [List.map_cons, List.map_nil, List.sum_cons, List.sum_nil, if_pos h]
      ring
    · have h1 : min (cols - 1).toNat (m + 1) = min (cols - 1).toNat m := by omega
      rw [h1]
      simp only [List.map_cons, List.map_nil, List.sum_cons, List.sum_nil, if_neg h]
      ring

theorem outer_sum (rows : Int) (a k : Nat) : ∀ m : Nat,
    ((List.range m).map (fun i : Nat =>
      a + k * (if (i : Int) < rows - 1 then 1 else 0))).sum =
      m * a + k * min (rows - 1).toNat m := by
  intro m
  induction m with
  | zero => simp
  | succ m ihm =>
    rw [List.range_succ, List.map_append, List.sum_append, ihm]
    by_cases h : (m : Int) < rows - 1
    · have h1 : min (rows - 1).toNat (m + 1) = min (rows - 1).toNat m + 1 := by omega
      rw [h1]
      simp only [List.map_cons, List.map_nil, List.sum_cons, List.sum_nil, if_pos h]
      ring
    · have h1 : min (rows - 1).toNat (m + 1) = min (rows - 1).toNat m := by omega
      rw [h1]
      simp only [List.map_cons, List.map_nil, List.sum_cons, List.sum_nil, if_neg h]
      ring

theorem length_flatMap_intRange {A : Type} (n : Int) (f : Int → List A) :
    ((intRange n).flatMap f).length =
      ((List.range n.toNat).map (fun i : Nat => (f (i : Int)).length)).sum := by
  rw [List.length_flatMap, intRange, List.map_map]
  rfl

theorem row_length (rows cols row : Int) :
    (((intRange cols).flatMap (cellEdges rows cols row))).length =
      (cols - 1).toNat + cols.toNat * (if row < rows - 1 then 1 else 0) := by
  rw [length_flatMap_intRange]
  have hcongr : (List.range cols.toNat).map
      (fun i : Nat => (cellEdges rows cols row (i : Int)).length) =
      (List.range cols.toNat).map (fun i : Nat =>
        (if (i : Int) < cols - 1 then 1 else 0) +
          (if row < rows - 1 then 1 else 0)) := by
    refine List.map_congr_left ?_
    intro i _
    rw [cellEdges_length]
  rw [hcongr, row_sum]
  have hmin : min (cols - 1).toNat cols.toNat = (cols - 1).toNat := by omega
  rw [hmin]

theorem length_pairList (rows cols : Int) :
    (pairList rows cols).length =
      rows.toNat * (cols - 1).toNat + cols.toNat * (rows - 1).toNat := by
  rw [pairList, length_flatMap_intRange]
  have hcongr : (List.range rows.toNat).map
      (fun i : Nat => ((intRange cols).flatMap (cellEdges rows cols (i : Int))).length) =
      (List.range rows.toNat).map (fun i : Nat =>
        (cols - 1).toNat + cols.toNat * (if (i : Int) < rows - 1 then 1 else 0)) := by
    refine List.map_congr_left ?_
    intro i _
    rw [row_length]
  rw [hcongr, outer_sum]
  have hmin : min (rows - 1).toNat rows.toNat = (rows - 1).toNat := by omega
  rw [hmin]

theorem length_initEdges (rows cols : Int) :
    (initEdges rows cols).length =
      rows.toNat * (cols - 1).toNat + cols.toNat * (rows - 1).toNat := by
  rw [initEdges_eq, List.length_map, length_pairList]

/-! Operation characterization lemmas. -/

theorem make_move_not_playing {g : BridgeItGame} {n1 n2 : GNode}
    (hst : g.game_state ≠ GameState.PLAYING) : make_move g n1 n2 = (g, false) := by
  unfold make_move
  rw [if_pos hst]

theorem make_move_none {g : BridgeItGame} {n1 n2 : GNode}
    (hst : g.game_state = GameState.PLAYING)
    (hcp : get_current_player g = none) : make_move g n1 n2 = (g, false) := by
  simp only [make_move, hst, hcp, ne_eq, not_true_eq_false, if_false]

theorem make_move_invalid {g : BridgeItGame} {n1 n2 : GNode} {cp : Player}
    (hst : g.game_state = GameState.PLAYING)
    (hcp : get_current_player g = some cp)
    (hv : is_valid_move g.board n1 n2 = false) : make_move g n1 n2 = (g, false) := by
  have hpb : place_bridge g.board n1 n2 cp.player_id = (g.board, false) := by
    unfold place_bridge
    rw [if_neg (by simp [hv])]
  simp only [make_move, hst, hcp, hpb, ne_eq, not_true_eq_false, if_false]

theorem make_move_valid {g : BridgeItGame} {n1 n2 : GNode} {cp : Player}
    (hst : g.game_state = GameState.PLAYING)
    (hcp : get_current_player g = some cp)
    (hv : is_valid_move g.board n1 n2 = true) :
    make_move g n1 n2 =
      (if has_winning_path { g.board with
            edges := dictSet g.board.edges (normalize_edge n1 n2)
              (player_state_of cp.player_id) } cp.player_id then
        ({ g with
            board := { g.board with
              edges := dictSet g.board.edges (normalize_edge n1 n2)
                (player_state_of cp.player_id) }
            move_history := g.move_history ++ [(n1, n2, cp.player_id)]
            players := pySet g.players g.current_player_index
              { cp with moves_made := cp.moves_made + 1 }
            winner := some { cp with moves_made := cp.moves_made + 1 }
            game_state := GameState.FINISHED }, true)
      else
        ({ g with
            board := { g.board with
              edges := dictSet g.board.edges (normalize_edge n1 n2)
                (player_state_of cp.player_id) }
            move_history := g.move_history ++ [(n1, n2, cp.player_id)]
            players := pySet g.players g.current_player_index
              { cp with moves_made := cp.moves_made + 1 }
            current_player_index := 1 - g.current_player_index }, true)) := by
  have hpb : place_bridge g.board n1 n2 cp.player_id =
      ({ g.board with
          edges := dictSet g.board.edges (normalize_edge n1 n2)
            (player_state_of cp.player_id) }, true) := by
    unfold place_bridge
    rw [if_pos hv]
  simp only [make_move, hst, hcp, hpb, ne_eq, not_true_eq_false, if_false]

theorem undo_noop {g : BridgeItGame}
    (h : g.move_history = [] ∨ g.game_state = GameState.FINISHED) :
    undo_last_move g = (g, false) := by
  unfold undo_last_move
  rw [if_pos h]

theorem undo_char {g : BridgeItGame} {e : GNode × GNode × Int}
    (hne : ¬ (g.move_history = [] ∨ g.game_state = GameState.FINISHED))
    (hlast : g.move_history.getLast? = some e) :
    undo_last_move g =
      ({ g with
          board := { g.board with
            edges := dictSet g.board.edges (histEdge e) EdgeState.EMPTY }
          move_history := g.move_history.dropLast
          players := decFirst g.players (histPid e)
          current_player_index := 1 - g.current_player_index }, true) := by
  obtain ⟨n1, n2, pid⟩ := e
  simp only [undo_last_move, hne, hlast, if_false, histEdge, histPid]

/-! Helper lemmas for invariant preservation. -/

theorem countP_concat (h : List (GNode × GNode × Int)) (x : GNode × GNode × Int)
    (p : (GNode × GNode × Int) → Bool) :
    (h ++ [x]).countP p = h.countP p + (if p x then 1 else 0) := by
  rw [List.countP_append]
  simp [List.countP_cons]

theorem hist_alt_append {h : List (GNode × GNode × Int)} {x : GNode × GNode × Int}
    (halt : ∀ (i : Nat) (hi : i < h.length), histPid (h[i]) = if i % 2 = 0 then 1 else 2)
    (hx : histPid x = if h.length % 2 = 0 then 1 else 2) :
    ∀ (i : Nat) (hi : i < (h ++ [x]).length),
      histPid ((h ++ [x])[i]) = if i % 2 = 0 then 1 else 2 := by
  intro i hi
  by_cases hlt : i < h.length
  · rw [List.getElem_append_left hlt]
    exact halt i hlt
  · simp only [List.length_append, List.length_cons, List.length_nil] at hi
    have hieq : i = h.length := by omega
    rw [List.getElem_concat_length _ _ _ hieq]
    rw [hieq]
    exact hx

theorem hist_edges_after_set {edges : List (GEdge × EdgeState)}
    {h : List (GNode × GNode × Int)} {e : GEdge} (m : EdgeState)
    (he : ∀ x ∈ h, dictGet edges (histEdge x) = some (player_state_of (histPid x)))
    (hget : dictGet edges e = some EdgeState.EMPTY) :
    ∀ x ∈ h, dictGet (dictSet edges e m) (histEdge x) =
      some (player_state_of (histPid x)) := by
  intro x hx
  have hx' := he x hx
  have hne : histEdge x ≠ e := by
    intro hh
    rw [hh, hget] at hx'
    exact player_state_of_ne_empty _ (Option.some.inj hx').symm
  rw [dictGet_dictSet_ne _ _ hne]
  exact hx'

theorem new_edge_not_mem {edges : List (GEdge × EdgeState)}
    {h : List (GNode × GNode × Int)} {e : GEdge}
    (he : ∀ x ∈ h, dictGet edges (histEdge x) = some (player_state_of (histPid x)))
    (hget : dictGet edges e = some EdgeState.EMPTY) :
    e ∉ h.map histEdge := by
  intro hmem
  obtain ⟨x, hx, hxe⟩ := List.mem_map.mp hmem
  have hx' := he x hx
  rw [hxe, hget] at hx'
  exact player_state_of_ne_empty _ (Option.some.inj hx').symm

theorem GInv_make_move {g : BridgeItGame} (hinv : GInv g) (n1 n2 : GNode) :
    GInv (make_move g n1 n2).1 := by
  by_cases hst : g.game_state = GameState.PLAYING
  · obtain ⟨a, b, hpl, ha1, hb2, hma, hmb⟩ := hinv.players_ok
    have hidx := hinv.turn_parity hst
    have hc0 : countNE g.board.edges = g.move_history.length := hinv.count_ok
    by_cases hpar : g.move_history.length % 2 = 0
    · have hidx0 : g.current_player_index = 0 := by
        rw [hidx, hpar]
        rfl
      have hcp : get_current_player g = some a := by
        unfold get_current_player
        rw [if_neg (by simp [hst, hpl]), hpl, hidx0]
        rfl
      by_cases hv : is_valid_move g.board n1 n2 = true
      · have hget : dictGet g.board.edges (normalize_edge n1 n2) = some EdgeState.EMPTY := by
          simpa [is_valid_move] using hv
        rw [make_move_valid hst hcp hv]
        have hkeys : (dictSet g.board.edges (normalize_edge n1 n2)
            (player_state_of a.player_id)).map Prod.fst =
            pairList g.board.rows g.board.cols := by
          rw [map_fst_dictSet _ hget]
          exact hinv.keys_ok
        have hcount : countNE (dictSet g.board.edges (normalize_edge n1 n2)
            (player_state_of a.player_id)) = g.move_history.length + 1 := by
          rw [countNE_dictSet_fill hget (player_state_of_ne_empty _), hc0]
        have hhe := hist_edges_after_set (player_state_of a.player_id)
          hinv.hist_edges hget
        have hnm := new_edge_not_mem hinv.hist_edges hget
        have hpid1 : histPid (n1, n2, a.player_id) = 1 := ha1
        have hx : histPid (n1, n2, a.player_id) =
            if g.move_history.length % 2 = 0 then 1 else 2 := by
          rw [hpid1, if_pos hpar]
        have hcnt1 : (g.move_history ++ [(n1, n2, a.player_id)]).countP
            (fun e => decide (histPid e = 1)) =
            g.move_history.countP (fun e => decide (histPid e = 1)) + 1 := by
          rw [countP_concat]
          simp [hpid1]
        have hcnt2 : (g.move_history ++ [(n1, n2, a.player_id)]).countP
            (fun e => decide (histPid e = 2)) =
            g.move_history.countP (fun e => decide (histPid e = 2)) := by
          rw [countP_concat]
          simp [hpid1]
        have hnodup : ((g.move_history ++ [(n1, n2, a.player_id)]).map histEdge).Nodup := by
          rw [List.map_append]
          refine List.nodup_append.mpr ⟨hinv.hist_nodup, List.nodup_singleton _, ?_⟩
          intro z hz hz2
          simp only [List.map_cons, List.map_nil, List.mem_singleton] at hz2
          subst hz2
          exact hnm hz
        have hedges : ∀ x ∈ g.move_history ++ [(n1, n2, a.player_id)],
            dictGet (dictSet g.board.edges (normalize_edge n1 n2)
              (player_state_of a.player_id)) (histEdge x) =
              some (player_state_of (histPid x)) := by
          intro x hxm
          rcases List.mem_append.mp hxm with hxm1 | hxm2
          · exact hhe x hxm1
          · have hxx : x = (n1, n2, a.player_id) := by simpa using hxm2
            subst hxx
            exact dictGet_dictSet_self _ _ _
        have hcountown : countNE (dictSet g.board.edges (normalize_edge n1 n2)
            (player_state_of a.player_id)) =
            (g.move_history ++ [(n1, n2, a.player_id)]).length := by
          rw [hcount]
          simp
        by_cases hw : has_winning_path { g.board with
            edges := dictSet g.board.edges (normalize_edge n1 n2)
              (player_state_of a.player_id) } a.player_id = true
        · rw [if_pos hw]
          refine ⟨Or.inr rfl, ?_, hist_alt_append hinv.hist_alt hx, ?_, hkeys, hedges,
            hnodup, hcountown⟩
          · rw [hpl, hidx0]
            refine ⟨{ a with moves_made := a.moves_made + 1 }, b, rfl, ha1, hb2, ?_, ?_⟩
            · show a.moves_made + 1 = _
              rw [hcnt1, hma]
              push_cast
              ring
            · show b.moves_made = _
              rw [hcnt2]
              exact hmb
          · intro hcontra
            exact absurd hcontra (by simp)
        · rw [if_neg hw]
          refine ⟨Or.inl hst, ?_, hist_alt_append hinv.hist_alt hx, ?_, hkeys, hedges,
            hnodup, hcountown⟩
          · rw [hpl, hidx0]
            refine ⟨{ a with moves_made := a.moves_made + 1 }, b, rfl, ha1, hb2, ?_, ?_⟩
            · show a.moves_made + 1 = _
              rw [hcnt1, hma]
              push_cast
              ring
            · show b.moves_made = _
              rw [hcnt2]
              exact hmb
          · intro _
            show 1 - g.current_player_index = _
            rw [hidx0]
            simp only [List.length_append, List.length_cons, List.length_nil]
            omega
      · have hv' : is_valid_move g.board n1 n2 = false := by simpa using hv
        rw [make_move_invalid hst hcp hv']
        exact hinv
    · have hpar1 : g.move_history.length % 2 = 1 := by omega
      have hidx1 : g.current_player_index = 1 := by
        rw [hidx, hpar1]
        rfl
      have hcp : get_current_player g = some b := by
        unfold get_current_player
        rw [if_neg (by simp [hst, hpl]), hpl, hidx1]
        rfl
      by_cases hv : is_valid_move g.board n1 n2 = true
      · have hget : dictGet g.board.edges (normalize_edge n1 n2) = some EdgeState.EMPTY := by
          simpa [is_valid_move] using hv
        rw [make_move_valid hst hcp hv]
        have hkeys : (dictSet g.board.edges (normalize_edge n1 n2)
            (player_state_of b.player_id)).map Prod.fst =
            pairList g.board.rows g.board.cols := by
          rw [map_fst_dictSet _ hget]
          exact hinv.keys_ok
        have hcount : countNE (dictSet g.board.edges (normalize_edge n1 n2)
            (player_state_of b.player_id)) = g.move_history.length + 1 := by
          rw [countNE_dictSet_fill hget (player_state_of_ne_empty _), hc0]
        have hhe := hist_edges_after_set (player_state_of b.player_id)
          hinv.hist_edges hget
        have hnm := new_edge_not_mem hinv.hist_edges hget
        have hpid2 : histPid (n1, n2, b.player_id) = 2 := hb2
        have hx : histPid (n1, n2, b.player_id) =
            if g.move_history.length % 2 = 0 then 1 else 2 := by
          rw [hpid2, if_neg (by omega)]
        have hcnt1 : (g.move_history ++ [(n1, n2, b.player_id)]).countP
            (fun e => decide (histPid e = 1)) =
            g.move_history.countP (fun e => decide (histPid e = 1)) := by
          rw [countP_concat]
          simp [hpid2]
        have hcnt2 : (g.move_history ++ [(n1, n2, b.player_id)]).countP
            (fun e => decide (histPid e = 2)) =
            g.move_history.countP (fun e => decide (histPid e = 2)) + 1 := by
          rw [countP_concat]
          simp [hpid2]
        have hnodup : ((g.move_history ++ [(n1, n2, b.player_id)]).map histEdge).Nodup := by
          rw [List.map_append]
          refine List.nodup_append.mpr ⟨hinv.hist_nodup, List.nodup_singleton _, ?_⟩
          intro z hz hz2
          simp only [List.map_cons, List.map_nil, List.mem_singleton] at hz2
          subst hz2
          exact hnm hz
        have hedges : ∀ x ∈ g.move_history ++ [(n1, n2, b.player_id)],
            dictGet (dictSet g.board.edges (normalize_edge n1 n2)
              (player_state_of b.player_id)) (histEdge x) =
              some (player_state_of (histPid x)) := by
          intro x hxm
          rcases List.mem_append.mp hxm with hxm1 | hxm2
          · exact hhe x hxm1
          · have hxx : x = (n1, n2, b.player_id) := by simpa using hxm2
            subst hxx
            exact dictGet_dictSet_self _ _ _
        have hcountown : countNE (dictSet g.board.edges (normalize_edge n1 n2)
            (player_state_of b.player_id)) =
            (g.move_history ++ [(n1, n2, b.player_id)]).length := by
          rw [hcount]
          simp
        by_cases hw : has_winning_path { g.board with
            edges := dictSet g.board.edges (normalize_edge n1 n2)
              (player_state_of b.player_id) } b.player_id = true
        · rw [if_pos hw]
          refine ⟨Or.inr rfl, ?_, hist_alt_append hinv.hist_alt hx, ?_, hkeys, hedges,
            hnodup, hcountown⟩
          · rw [hpl, hidx1]
            refine ⟨a, { b with moves_made := b.moves_made + 1 }, rfl, ha1, hb2, ?_, ?_⟩
            · show a.moves_made = _
              rw [hcnt1]
              exact hma
            · show b.moves_made + 1 = _
              rw [hcnt2, hmb]
              push_cast
              ring
          · intro hcontra
            exact absurd hcontra (by simp)
        · rw [if_neg hw]
          refine ⟨Or.inl hst, ?_, hist_alt_append hinv.hist_alt hx, ?_, hkeys, hedges,
            hnodup, hcountown⟩
          · rw [hpl, hidx1]
            refine ⟨a, { b with moves_made := b.moves_made + 1 }, rfl, ha1, hb2, ?_, ?_⟩
            · show a.moves_made = _
              rw [hcnt1]
              exact hma
            · show b.moves_made + 1 = _
              rw [hcnt2, hmb]
              push_cast
              ring
          · intro _
            show 1 - g.current_player_index = _
            rw [hidx1]
            simp only [List.length_append, List.length_cons, List.length_nil]
            omega
      · have hv' : is_valid_move g.board n1 n2 = false := by simpa using hv
        rw [make_move_invalid hst hcp hv']
        exact hinv
  · rw [make_move_not_playing hst]
    exact hinv

theorem map_fst_initEdges (rows cols : Int) :
    (initEdges rows cols).map Prod.fst = pairList rows cols := by
  rw [initEdges_eq, List.map_map]
  have hid : (Prod.fst ∘ fun e : GEdge => (e, EdgeState.EMPTY)) = id := rfl
  rw [hid, List.map_id]

theorem countNE_initEdges (rows cols : Int) : countNE (initEdges rows cols) = 0 := by
  rw [countNE, initEdges_eq, List.filter_map]
  simp

theorem GInv_undo {g : BridgeItGame} (hinv : GInv g) : GInv (undo_last_move g).1 := by
  by_cases hcond : g.move_history = [] ∨ g.game_state = GameState.FINISHED
  · rw [undo_noop hcond]
    exact hinv
  · push_neg at hcond
    obtain ⟨hne, hnf⟩ := hcond
    have hst : g.game_state = GameState.PLAYING := hinv.state_ok.resolve_right hnf
    have hlast := List.getLast?_eq_getLast g.move_history hne
    rw [undo_char (by push_neg; exact ⟨hne, hnf⟩) hlast]
    obtain ⟨a, b, hpl, ha1, hb2, hma, hmb⟩ := hinv.players_ok
    have hc0 : countNE g.board.edges = g.move_history.length := hinv.count_ok
    have hlen1 : 1 ≤ g.move_history.length := by
      have := List.length_pos.mpr hne
      omega
    have hsplit : g.move_history.dropLast ++ [g.move_history.getLast hne] =
        g.move_history := List.dropLast_concat_getLast hne
    have hemem : g.move_history.getLast hne ∈ g.move_history := List.getLast_mem hne
    have hegete := hinv.hist_edges _ hemem
    have hpid : histPid (g.move_history.getLast hne) =
        if (g.move_history.length - 1) % 2 = 0 then 1 else 2 := by
      rw [List.getLast_eq_getElem]
      exact hinv.hist_alt (g.move_history.length - 1) (by omega)
    have hkeys : (dictSet g.board.edges (histEdge (g.move_history.getLast hne))
        EdgeState.EMPTY).map Prod.fst = pairList g.board.rows g.board.cols := by
      rw [map_fst_dictSet _ hegete]
      exact hinv.keys_ok
    have hcount : countNE (dictSet g.board.edges
        (histEdge (g.move_history.getLast hne)) EdgeState.EMPTY) + 1 =
        g.move_history.length := by
      rw [countNE_dictSet_clear hegete (player_state_of_ne_empty _)]
      exact hc0
    have hmapsplit : g.move_history.map histEdge =
        g.move_history.dropLast.map histEdge ++
          [histEdge (g.move_history.getLast hne)] := by
      conv_lhs => rw [← hsplit]
      rw [List.map_append]
      rfl
    obtain ⟨hndDrop, _, hdisj⟩ := List.nodup_append.mp (hmapsplit ▸ hinv.hist_nodup)
    have hedges : ∀ x ∈ g.move_history.dropLast,
        dictGet (dictSet g.board.edges (histEdge (g.move_history.getLast hne))
          EdgeState.EMPTY) (histEdge x) = some (player_state_of (histPid x)) := by
      intro x hx
      have hxget := hinv.hist_edges x (List.dropLast_subset _ hx)
      have hne2 : histEdge x ≠ histEdge (g.move_history.getLast hne) := by
        intro hh
        exact hdisj (List.mem_map.mpr ⟨x, hx, rfl⟩)
          (by rw [hh]; exact List.mem_singleton.mpr rfl)
      rw [dictGet_dictSet_ne _ _ hne2]
      exact hxget
    have halt : ∀ (i : Nat) (hi : i < g.move_history.dropLast.length),
        histPid (g.move_history.dropLast[i]) = if i % 2 = 0 then 1 else 2 := by
      intro i hi
      rw [List.getElem_dropLast]
      exact hinv.hist_alt i (by rw [List.length_dropLast] at hi; omega)
    have hcntsplit : ∀ p : (GNode × GNode × Int) → Bool,
        g.move_history.countP p = g.move_history.dropLast.countP p +
          (if p (g.move_history.getLast hne) then 1 else 0) := by
      intro p
      conv_lhs => rw [← hsplit]
      rw [countP_concat]
    have hparity : ∀ hplay : True, (1 : Int) - g.current_player_index =
        ((g.move_history.dropLast.length % 2 : Nat) : Int) := by
      intro _
      rw [hinv.turn_parity hst]
      simp only [List.length_dropLast]
      omega
    have hcountown : countNE (dictSet g.board.edges
        (histEdge (g.move_history.getLast hne)) EdgeState.EMPTY) =
        g.move_history.dropLast.length := by
      simp only [List.length_dropLast]
      omega
    have hpid12 : histPid (g.move_history.getLast hne) = 1 ∨
        histPid (g.move_history.getLast hne) = 2 := by
      rw [hpid]
      split
      · exact Or.inl rfl
      · exact Or.inr rfl
    rcases hpid12 with hp | hp
    · have hdec : decFirst g.players (histPid (g.move_history.getLast hne)) =
          [{ a with moves_made := a.moves_made - 1 }, b] := by
        rw [hpl, hp]
        simp [decFirst, ha1]
      refine ⟨Or.inl hst, ?_, halt, fun _ => hparity trivial, hkeys, hedges, hndDrop,
        hcountown⟩
      rw [hdec]
      refine ⟨_, b, rfl, ha1, hb2, ?_, ?_⟩
      · show a.moves_made - 1 =
          ((g.move_history.dropLast.countP (fun x => decide (histPid x = 1)) : Nat) : Int)
        have h1 := hcntsplit (fun x => decide (histPid x = 1))
        rw [if_pos (by simp [hp])] at h1
        omega
      · show b.moves_made =
          ((g.move_history.dropLast.countP (fun x => decide (histPid x = 2)) : Nat) : Int)
        have h2 := hcntsplit (fun x => decide (histPid x = 2))
        rw [if_neg (by simp [hp])] at h2
        omega
    · have hdec : decFirst g.players (histPid (g.move_history.getLast hne)) =
          [a, { b with moves_made := b.moves_made - 1 }] := by
        rw [hpl, hp]
        simp [decFirst, ha1, hb2]
      refine ⟨Or.inl hst, ?_, halt, fun _ => hparity trivial, hkeys, hedges, hndDrop,
        hcountown⟩
      rw [hdec]
      refine ⟨a, _, rfl, ha1, hb2, ?_, ?_⟩
      · show a.moves_made =
          ((g.move_history.dropLast.countP (fun x => decide (histPid x = 1)) : Nat) : Int)
        have h1 := hcntsplit (fun x => decide (histPid x = 1))
        rw [if_neg (by simp [hp])] at h1
        omega
      · show b.moves_made - 1 =
          ((g.move_history.dropLast.countP (fun x => decide (histPid x = 2)) : Nat) : Int)
        have h2 := hcntsplit (fun x => decide (histPid x = 2))
        rw [if_pos (by simp [hp])] at h2
        omega

theorem GInv_reset {g : BridgeItGame} (hinv : GInv g) : GInv (reset_game g) := by
  obtain ⟨a, b, hpl, ha1, hb2, _, _⟩ := hinv.players_ok
  have hlen2 : g.players.length = 2 := by rw [hpl]; rfl
  unfold reset_game
  refine ⟨Or.inl (by simp [hlen2]), ?_, ?_, ?_, ?_, ?_, ?_, ?_⟩
  · refine ⟨{ a with moves_made := 0 }, { b with moves_made := 0 }, ?_, ha1, hb2, rfl, rfl⟩
    rw [hpl]
    rfl
  · intro i hi
    simp at hi
  · intro _
    rfl
  · exact map_fst_initEdges _ _
  · intro e he
    simp at he
  · simp
  · exact countNE_initEdges _ _

theorem GInv_init {rows cols : Int} {n1 c1 n2 c2 : String} {t1 t2 : PlayerType}
    {g1 : BridgeItGame} {p1 : Player} {g2 : BridgeItGame} {p2 : Player}
    {g3 : BridgeItGame}
    (h1 : add_player (newGame rows cols) n1 c1 t1 = Except.ok (g1, p1))
    (h2 : add_player g1 n2 c2 t2 = Except.ok (g2, p2))
    (h3 : start_game g2 = (g3, true)) : GInv g3 := by
  have e1 : add_player (newGame rows cols) n1 c1 t1 =
      Except.ok (⟨mkBoard rows cols, [⟨1, n1, c1, t1, 0⟩], 0, GameState.SETUP, none, []⟩,
        (⟨1, n1, c1, t1, 0⟩ : Player)) := rfl
  rw [e1] at h1
  simp only [Except.ok.injEq, Prod.mk.injEq] at h1
  obtain ⟨hg1, _⟩ := h1
  subst hg1
  have e2 : add_player (⟨mkBoard rows cols, [⟨1, n1, c1, t1, 0⟩], 0, GameState.SETUP,
      none, []⟩ : BridgeItGame) n2 c2 t2 =
      Except.ok (⟨mkBoard rows cols, [⟨1, n1, c1, t1, 0⟩, ⟨2, n2, c2, t2, 0⟩], 0,
        GameState.SETUP, none, []⟩, (⟨2, n2, c2, t2, 0⟩ : Player)) := rfl
  rw [e2] at h2
  simp only [Except.ok.injEq, Prod.mk.injEq] at h2
  obtain ⟨hg2, _⟩ := h2
  subst hg2
  have e3 : start_game (⟨mkBoard rows cols, [⟨1, n1, c1, t1, 0⟩, ⟨2, n2, c2, t2, 0⟩], 0,
      GameState.SETUP, none, []⟩ : BridgeItGame) =
      (⟨mkBoard rows cols, [⟨1, n1, c1, t1, 0⟩, ⟨2, n2, c2, t2, 0⟩], 0,
        GameState.PLAYING, none, []⟩, true) := rfl
  rw [e3] at h3
  simp only [Prod.mk.injEq] at h3
  obtain ⟨hg3, _⟩ := h3
  subst hg3
  refine ⟨Or.inl rfl, ⟨⟨1, n1, c1, t1, 0⟩, ⟨2, n2, c2, t2, 0⟩, rfl, rfl, rfl, rfl, rfl⟩,
    ?_, fun _ => rfl, map_fst_initEdges _ _, ?_, by simp, countNE_initEdges _ _⟩
  · intro i hi
    simp at hi
  · intro e he
    simp at he

theorem reachable_GInv {g : BridgeItGame} (h : Reachable g) : GInv g := by
  induction h with
  | init rows cols n1 c1 n2 c2 t1 t2 g1 p1 g2 p2 g3 h1 h2 h3 => exact GInv_init h1 h2 h3
  | move g a c _ ih => exact GInv_make_move ih a c
  | undo g _ ih => exact GInv_undo ih
  | reset g _ ih => exact GInv_reset ih

theorem reachable_game0 : Reachable game0 :=
  Reachable.init 3 3 "Alice" "red" "Bob" "blue" PlayerType.HUMAN PlayerType.HUMAN
    ⟨mkBoard 3 3, [pAlice], 0, GameState.SETUP, none, []⟩ pAlice
    ⟨mkBoard 3 3, [pAlice, pBob], 0, GameState.SETUP, none, []⟩ pBob
    game0 rfl rfl rfl

theorem reachable_game1 : Reachable game1 :=
  Reachable.move game0 (0, 0) (1, 0) reachable_game0

theorem reachable_game2 : Reachable game2 :=
  Reachable.move game1 (0, 1) (0, 2) reachable_game1

/-- C7: for all rows R >= 3 and cols C >= 3, EdgeGrid(R, C) contains exactly
R*(C-1) + C*(R-1) edges, every one of them Empty. -/
theorem bridgeit_C7_grid_init :
    ∀ rows cols : Int, 3 ≤ rows → 3 ≤ cols →
      (((mkBoard rows cols).edges.length : Int) =
        rows * (cols - 1) + cols * (rows - 1)) ∧
      (∀ kv ∈ (mkBoard rows cols).edges, kv.2 = EdgeState.EMPTY) := by
  intro rows cols hr hc
  constructor
  · show ((initEdges rows cols).length : Int) = _
    rw [length_initEdges]
    push_cast
    rw [Int.toNat_of_nonneg (by omega : (0:Int) ≤ rows),
      Int.toNat_of_nonneg (by omega : (0:Int) ≤ cols - 1),
      Int.toNat_of_nonneg (by omega : (0:Int) ≤ cols),
      Int.toNat_of_nonneg (by omega : (0:Int) ≤ rows - 1)]
  · intro kv hkv
    have hkv' : kv ∈ (pairList rows cols).map (fun e => (e, EdgeState.EMPTY)) := by
      rw [← initEdges_eq]
      exact hkv
    obtain ⟨e, _, he⟩ := List.mem_map.mp hkv'
    rw [← he]

/-- C7 witness: the concrete 3x3 grid has 3*2 + 3*2 = 12 edges. -/
theorem bridgeit_C7_witness :
    ((mkBoard 3 3).edges.length : Int) = 3 * (3 - 1) + 3 * (3 - 1) :=
  (bridgeit_C7_grid_init 3 3 (by decide) (by decide)).1

/-- C8: placeEdge succeeds iff the canonicalized edge is a stored Empty edge;
on success it recolors exactly that edge with the mover marker; on failure the
board is unchanged; and a second placement of the same pair is rejected for
every player. -/
theorem bridgeit_C8_placeEdge :
    ∀ (b : Board) (n1 n2 : GNode) (p : Int),
      ((place_bridge b n1 n2 p).2 = true ↔
        dictGet b.edges (normalize_edge n1 n2) = some EdgeState.EMPTY) ∧
      ((place_bridge b n1 n2 p).2 = true →
        (place_bridge b n1 n2 p).1 = { b with
          edges := dictSet b.edges (normalize_edge n1 n2) (player_state_of p) } ∧
        get_edge_state (place_bridge b n1 n2 p).1 n1 n2 = player_state_of p) ∧
      ((place_bridge b n1 n2 p).2 = false → (place_bridge b n1 n2 p).1 = b) ∧
      ((place_bridge b n1 n2 p).2 = true → ∀ q : Int,
        place_bridge (place_bridge b n1 n2 p).1 n1 n2 q =
          ((place_bridge b n1 n2 p).1, false)) := by
  intro b n1 n2 p
  by_cases hv : is_valid_move b n1 n2 = true
  · have hget : dictGet b.edges (normalize_edge n1 n2) = some EdgeState.EMPTY := by
      simpa [is_valid_move] using hv
    have hpb : place_bridge b n1 n2 p =
        ({ b with
            edges := dictSet b.edges (normalize_edge n1 n2) (player_state_of p) },
          true) := by
      unfold place_bridge
      rw [if_pos hv]
    rw [hpb]
    refine ⟨by simp [hget], fun _ => ⟨rfl, ?_⟩, by simp, fun _ q => ?_⟩
    · show (dictGet (dictSet b.edges (normalize_edge n1 n2) (player_state_of p))
        (normalize_edge n1 n2)).getD EdgeState.EMPTY = player_state_of p
      rw [dictGet_dictSet_self]
      rfl
    · have hv2 : ¬ (is_valid_move
          { b with
            edges := dictSet b.edges (normalize_edge n1 n2) (player_state_of p) }
          n1 n2 = true) := by
        simp only [is_valid_move, decide_eq_true_eq]
        show ¬ (dictGet (dictSet b.edges (normalize_edge n1 n2) (player_state_of p))
          (normalize_edge n1 n2) = some EdgeState.EMPTY)
        rw [dictGet_dictSet_self]
        intro hcontra
        exact player_state_of_ne_empty p (Option.some.inj hcontra)
      unfold place_bridge
      rw [if_neg hv2]
  · have hv' : is_valid_move b n1 n2 = false := by simpa using hv
    have hget' : ¬ (dictGet b.edges (normalize_edge n1 n2) = some EdgeState.EMPTY) := by
      simpa [is_valid_move] using hv'
    have hpb : place_bridge b n1 n2 p = (b, false) := by
      unfold place_bridge
      rw [if_neg (by simp [hv'])]
    rw [hpb]
    exact ⟨by simp [hget'], by simp, fun _ => rfl, by simp⟩

/-- C8 witness: placing (0,0)-(0,1) on a fresh 3x3 board then placing the same
pair again is rejected, even for the other player. -/
theorem bridgeit_C8_witness :
    place_bridge ((place_bridge (mkBoard 3 3) (0, 0) (0, 1) 1).1) (0, 0) (0, 1) 2 =
      ((place_bridge (mkBoard 3 3) (0, 0) (0, 1) 1).1, false) :=
  (bridgeit_C8_placeEdge (mkBoard 3 3) (0, 0) (0, 1) 1).2.2.2 (by decide) 2

/-- A successful placement recolors the canonicalized edge with the mover
marker. -/
theorem place_bridge_success_state {b : Board} {n1 n2 : GNode} {p : Int}
    (hsucc : (place_bridge b n1 n2 p).2 = true) :
    get_edge_state (place_bridge b n1 n2 p).1 n1 n2 = player_state_of p := by
  by_cases hv : is_valid_move b n1 n2 = true
  · have hpb : place_bridge b n1 n2 p =
        ({ b with
            edges := dictSet b.edges (normalize_edge n1 n2) (player_state_of p) },
          true) := by
      unfold place_bridge
      rw [if_pos hv]
    rw [hpb]
    show (dictGet (dictSet b.edges (normalize_edge n1 n2) (player_state_of p))
      (normalize_edge n1 n2)).getD EdgeState.EMPTY = player_state_of p
    rw [dictGet_dictSet_self]
    rfl
  · have hpb : place_bridge b n1 n2 p = (b, false) := by
      unfold place_bridge
      rw [if_neg hv]
    rw [hpb] at hsucc
    simp at hsucc

/-- C10: every player id other than 1 is treated exactly as player 2 by
placeEdge and edgesOwnedBy; a successful placement by such an id marks the
edge PLAYER2, and no id is rejected. -/
theorem bridgeit_C10_other_ids :
    ∀ p : Int, p ≠ 1 →
      (∀ (b : Board) (n1 n2 : GNode),
        place_bridge b n1 n2 p = place_bridge b n1 n2 2 ∧
        ((place_bridge b n1 n2 p).2 = true →
          get_edge_state (place_bridge b n1 n2 p).1 n1 n2 = EdgeState.PLAYER2)) ∧
      (∀ b : Board, get_player_edges b p = get_player_edges b 2) := by
  intro p hp
  have hm : player_state_of p = EdgeState.PLAYER2 := by
    unfold player_state_of
    rw [if_neg hp]
  have hm2 : player_state_of 2 = EdgeState.PLAYER2 := rfl
  constructor
  · intro b n1 n2
    constructor
    · unfold place_bridge
      rw [hm, hm2]
    · intro hsucc
      rw [place_bridge_success_state hsucc, hm]
  · intro b
    unfold get_player_edges
    rw [hm, hm2]

/-- C1 counterexample: on the 1x3 grid, constructible since the engine does not
enforce dimension bounds, player 1 owns no edges and yet hasWinningPath(grid, 1)
returns true, because row 0 is simultaneously the first and the last row; this
refutes the clause that hasWinningPath returns false whenever the player owns
no edges. -/
theorem bridgeit_C1_counterexample :
    has_winning_path (mkBoard 1 3) 1 = true ∧ get_player_edges (mkBoard 1 3) 1 = [] := by
  constructor
  · decide
  · decide

/-- C1 (amended): for every grid whose stored edges join in-bounds nodes and
every playerId in {1,2}, hasWinningPath(grid, playerId) returns true iff some
node of that player start set reaches some node of the corresponding target
set through edges owned by the player (a start node that is itself a target
counts as reached); the no-owned-edges case returns false on every grid with
at least 2 rows and 2 columns. -/
theorem bridgeit_C1_hasWinningPath :
    (∀ b : Board, EdgeKeysValid b → ∀ p : Int, p = 1 ∨ p = 2 →
      (has_winning_path b p = true ↔
        ∃ s ∈ start_nodes b p, ∃ t ∈ end_nodes b p,
          reaches b (player_state_of p) s t)) ∧
    (∀ (b : Board) (p : Int), p = 1 ∨ p = 2 → 2 ≤ b.rows → 2 ≤ b.cols →
      get_player_edges b p = [] → has_winning_path b p = false) :=
  ⟨fun b hb p _ => has_winning_path_iff hb p,
   fun _ p hp h2 h3 he => has_winning_path_no_edges hp h2 h3 he⟩

/-- C1 witness: the iff applied to the concrete 3x3 board after player 1
placed (0,0)-(1,0), plus the no-owned-edges clause on the fresh 3x3 board. -/
theorem bridgeit_C1_witness :
    (has_winning_path game1.board 1 = true ↔
      ∃ s ∈ start_nodes game1.board 1, ∃ t ∈ end_nodes game1.board 1,
        reaches game1.board (player_state_of 1) s t) ∧
    has_winning_path (mkBoard 3 3) 1 = false := by
  constructor
  · exact bridgeit_C1_hasWinningPath.1 game1.board (by unfold EdgeKeysValid; decide) 1
      (Or.inl rfl)
  · exact bridgeit_C1_hasWinningPath.2 (mkBoard 3 3) 1 (Or.inl rfl) (by decide)
      (by decide) (by decide)

/-- C4 counterexample: game3 is Finished, yet startGame, which is neither
makeMove, undoLastMove nor resetGame, succeeds and moves the phase back to
Playing while keeping the winner; this refutes the clause that no engine
operation other than resetGame changes the phase of a Finished game. -/
theorem bridgeit_C4_counterexample :
    game3.game_state = GameState.FINISHED ∧
    (start_game game3).2 = true ∧
    (start_game game3).1.game_state = GameState.PLAYING ∧
    (start_game game3).1.winner.map Player.player_id = some 1 := by
  refine ⟨by decide, by decide, by decide, by decide⟩

/-- C4 (amended): once Finished, makeMove and undoLastMove return false with
no state change, but startGame is a further legal outgoing transition: with
two players registered it sets the phase back to Playing (resetting only the
turn index, keeping board, winner and history). -/
theorem bridgeit_C4_finished :
    ∀ g : BridgeItGame, g.game_state = GameState.FINISHED →
      (∀ n1 n2 : GNode, make_move g n1 n2 = (g, false)) ∧
      undo_last_move g = (g, false) ∧
      (g.players.length = 2 →
        start_game g =
          ({ g with
              game_state := GameState.PLAYING
              current_player_index := 0 }, true)) := by
  intro g hfin
  refine ⟨fun n1 n2 => make_move_not_playing (by simp [hfin]), undo_noop (Or.inr hfin), ?_⟩
  intro hlen
  unfold start_game
  rw [if_neg (by simp [hlen])]

/-- C4 witness: the amended statement applied to the concrete finished game. -/
theorem bridgeit_C4_witness :
    make_move game3 (0, 1) (1, 1) = (game3, false) ∧
    undo_last_move game3 = (game3, false) :=
  ⟨(bridgeit_C4_finished game3 (by decide)).1 (0, 1) (1, 1),
   (bridgeit_C4_finished game3 (by decide)).2.1⟩

/-- C5 counterexample: with two players registered, addPlayer raises
ValueError (modelled as an Except error that propagates to the caller) instead
of being a failing no-op; this refutes the claim that no engine operation
signals failure by throwing. -/
theorem bridgeit_C5_counterexample :
    add_player game0 "Carol" "green" PlayerType.HUMAN =
      Except.error "Game already has 2 players" := rfl

/-- C5 (amended): addPlayer with two players already registered raises
ValueError, which propagates to the caller; no registration takes place in
that case. -/
theorem bridgeit_C5_addPlayer_raises :
    ∀ (g : BridgeItGame) (n c : String) (t : PlayerType),
      2 ≤ g.players.length →
      add_player g n c t = Except.error "Game already has 2 players" := by
  intro g n c t h
  unfold add_player
  rw [if_pos h]

/-- C5 witness: the amended statement at a concrete two-player game. -/
theorem bridgeit_C5_witness :
    add_player game0 "Dave" "teal" PlayerType.AI =
      Except.error "Game already has 2 players" :=
  bridgeit_C5_addPlayer_raises game0 "Dave" "teal" PlayerType.AI (by decide)

/-- Full characterization of a successful non-winning makeMove from a state
satisfying the game invariant. -/
theorem make_move_nonwin_spec {g : BridgeItGame} (hinv : GInv g) {n1 n2 : GNode}
    {g' : BridgeItGame} (hst : g.game_state = GameState.PLAYING)
    (hmm : make_move g n1 n2 = (g', true))
    (hplay' : g'.game_state = GameState.PLAYING) :
    ∃ a b : Player, g.players = [a, b] ∧ a.player_id = 1 ∧ b.player_id = 2 ∧
      dictGet g.board.edges (normalize_edge n1 n2) = some EdgeState.EMPTY ∧
      ((g.move_history.length % 2 = 0 ∧ g.current_player_index = 0 ∧
          get_current_player g = some a ∧
          g' = { g with
            board := { g.board with
              edges := dictSet g.board.edges (normalize_edge n1 n2)
                (player_state_of a.player_id) }
            move_history := g.move_history ++ [(n1, n2, a.player_id)]
            players := [{ a with moves_made := a.moves_made + 1 }, b]
            current_player_index := 1 }) ∨
        (g.move_history.length % 2 = 1 ∧ g.current_player_index = 1 ∧
          get_current_player g = some b ∧
          g' = { g with
            board := { g.board with
              edges := dictSet g.board.edges (normalize_edge n1 n2)
                (player_state_of b.player_id) }
            move_history := g.move_history ++ [(n1, n2, b.player_id)]
            players := [a, { b with moves_made := b.moves_made + 1 }]
            current_player_index := 0 })) := by
  obtain ⟨a, b, hpl, ha1, hb2, hma, hmb⟩ := hinv.players_ok
  have hidx := hinv.turn_parity hst
  refine ⟨a, b, hpl, ha1, hb2, ?_⟩
  by_cases hpar : g.move_history.length % 2 = 0
  · have hidx0 : g.current_player_index = 0 := by
      rw [hidx, hpar]
      rfl
    have hcp : get_current_player g = some a := by
      unfold get_current_player
      rw [if_neg (by simp [hst, hpl]), hpl, hidx0]
      rfl
    by_cases hv : is_valid_move g.board n1 n2 = true
    · have hget : dictGet g.board.edges (normalize_edge n1 n2) =
          some EdgeState.EMPTY := by
        simpa [is_valid_move] using hv
      rw [make_move_valid hst hcp hv] at hmm
      by_cases hw : has_winning_path { g.board with
          edges := dictSet g.board.edges (normalize_edge n1 n2)
            (player_state_of a.player_id) } a.player_id = true
      · rw [if_pos hw, Prod.mk.injEq] at hmm
        obtain ⟨hgx, -⟩ := hmm
        rw [← hgx] at hplay'
        simp at hplay'
      · rw [if_neg hw, Prod.mk.injEq] at hmm
        obtain ⟨hy, -⟩ := hmm
        refine ⟨hget, Or.inl ⟨hpar, hidx0, hcp, ?_⟩⟩
        rw [← hy, hpl, hidx0]
        rfl
    · have hv' : is_valid_move g.board n1 n2 = false := by simpa using hv
      rw [make_move_invalid hst hcp hv', Prod.mk.injEq] at hmm
      simp at hmm
  · have hpar1 : g.move_history.length % 2 = 1 := by omega
    have hidx1 : g.current_player_index = 1 := by
      rw [hidx, hpar1]
      rfl
    have hcp : get_current_player g = some b := by
      unfold get_current_player
      rw [if_neg (by simp [hst, hpl]), hpl, hidx1]
      rfl
    by_cases hv : is_valid_move g.board n1 n2 = true
    · have hget : dictGet g.board.edges (normalize_edge n1 n2) =
          some EdgeState.EMPTY := by
        simpa [is_valid_move] using hv
      rw [make_move_valid hst hcp hv] at hmm
      by_cases hw : has_winning_path { g.board with
          edges := dictSet g.board.edges (normalize_edge n1 n2)
            (player_state_of b.player_id) } b.player_id = true
      · rw [if_pos hw, Prod.mk.injEq] at hmm
        obtain ⟨hgx, -⟩ := hmm
        rw [← hgx] at hplay'
        simp at hplay'
      · rw [if_neg hw, Prod.mk.injEq] at hmm
        obtain ⟨hy, -⟩ := hmm
        refine ⟨hget, Or.inr ⟨hpar1, hidx1, hcp, ?_⟩⟩
        rw [← hy, hpl, hidx1]
        rfl
    · have hv' : is_valid_move g.board n1 n2 = false := by simpa using hv
      rw [make_move_invalid hst hcp hv', Prod.mk.injEq] at hmm
      simp at hmm

/-- C3: from every reachable Playing engine state, undoLastMove immediately
after a successful non-winning makeMove restores the exact prior engine state:
the placed edge returns to Empty with no other change to the grid, and the
turn owner, both move counters and the history are as before. -/
theorem bridgeit_C3_undo_inverse :
    ∀ (g : BridgeItGame) (n1 n2 : GNode) (g' : BridgeItGame),
      Reachable g → g.game_state = GameState.PLAYING →
      make_move g n1 n2 = (g', true) → g'.game_state = GameState.PLAYING →
      undo_last_move g' = (g, true) := by
  intro g n1 n2 g' hre hst hmm hplay'
  have hinv := reachable_GInv hre
  obtain ⟨a, b, hpl, ha1, hb2, hget, hcase⟩ := make_move_nonwin_spec hinv hst hmm hplay'
  rcases hcase with ⟨hpar, hidx0, hcp, hgw⟩ | ⟨hpar, hidx1, hcp, hgw⟩
  · subst hgw
    rw [undo_char (by push_neg; exact ⟨by simp, by simp [hst]⟩) (List.getLast?_concat _)]
    rw [Prod.mk.injEq]
    refine ⟨?_, rfl⟩
    have hcancel : dictSet (dictSet g.board.edges (normalize_edge n1 n2)
        (player_state_of a.player_id)) (normalize_edge n1 n2) EdgeState.EMPTY =
        g.board.edges := dictSet_dictSet_cancel _ hget
    have haa : ({ a with moves_made := a.moves_made + 1 - 1 } : Player) = a := by
      obtain ⟨i, nm, cl, ty, mv⟩ := a
      simp only [Player.mk.injEq, and_true, true_and]
      omega
    show ({ g with
        board := { g.board with
          edges := dictSet (dictSet g.board.edges (normalize_edge n1 n2)
            (player_state_of a.player_id)) (normalize_edge n1 n2) EdgeState.EMPTY }
        move_history := (g.move_history ++ [(n1, n2, a.player_id)]).dropLast
        players := decFirst [{ a with moves_made := a.moves_made + 1 }, b] a.player_id
        current_player_index := 1 - 1 } : BridgeItGame) = g
    rw [hcancel, List.dropLast_concat]
    have hdec : decFirst [{ a with moves_made := a.moves_made + 1 }, b] a.player_id =
        [a, b] := by
      simp only [decFirst, if_pos]
      rw [haa]
    have hone : (1 : Int) - 1 = g.current_player_index := by rw [hidx0]; decide
    rw [hdec, ← hpl, hone]
  · subst hgw
    rw [undo_char (by push_neg; exact ⟨by simp, by simp [hst]⟩) (List.getLast?_concat _)]
    rw [Prod.mk.injEq]
    refine ⟨?_, rfl⟩
    have hcancel : dictSet (dictSet g.board.edges (normalize_edge n1 n2)
        (player_state_of b.player_id)) (normalize_edge n1 n2) EdgeState.EMPTY =
        g.board.edges := dictSet_dictSet_cancel _ hget
    have hbb : ({ b with moves_made := b.moves_made + 1 - 1 } : Player) = b := by
      obtain ⟨i, nm, cl, ty, mv⟩ := b
      simp only [Player.mk.injEq, and_true, true_and]
      omega
    show ({ g with
        board := { g.board with
          edges := dictSet (dictSet g.board.edges (normalize_edge n1 n2)
            (player_state_of b.player_id)) (normalize_edge n1 n2) EdgeState.EMPTY }
        move_history := (g.move_history ++ [(n1, n2, b.player_id)]).dropLast
        players := decFirst [a, { b with moves_made := b.moves_made + 1 }] b.player_id
        current_player_index := 1 - 0 } : BridgeItGame) = g
    rw [hcancel, List.dropLast_concat]
    have hdec : decFirst [a, { b with moves_made := b.moves_made + 1 }] b.player_id =
        [a, b] := by
      have hne : ¬ a.player_id = b.player_id := by rw [ha1, hb2]; decide
      simp only [decFirst, if_neg hne, if_pos]
      rw [hbb]
    have hone : (1 : Int) - 0 = g.current_player_index := by rw [hidx1]; decide
    rw [hdec, ← hpl, hone]

/-- C3 witness: undoing right after player 1 places (0,0)-(0,1) on the fresh
3x3 game restores exactly the initial game state. -/
theorem bridgeit_C3_witness :
    undo_last_move (make_move game0 (0, 0) (0, 1)).1 = (game0, true) :=
  bridgeit_C3_undo_inverse game0 (0, 0) (0, 1) (make_move game0 (0, 0) (0, 1)).1
    reachable_game0 rfl (by decide) (by decide)

/-- C6: in every reachable engine state, a successful non-winning makeMove
strictly alternates the current-turn player between ids 1 and 2, and after a
successful undoLastMove the current-turn player is the mover of the undone
move. -/
theorem bridgeit_C6_turn_alternation :
    ∀ g : BridgeItGame, Reachable g →
      (∀ (n1 n2 : GNode) (g' : BridgeItGame) (cp cp' : Player),
        make_move g n1 n2 = (g', true) → g'.game_state = GameState.PLAYING →
        get_current_player g = some cp → get_current_player g' = some cp' →
        (cp.player_id = 1 ∨ cp.player_id = 2) ∧ cp'.player_id = 3 - cp.player_id) ∧
      (∀ (g' : BridgeItGame) (e : GNode × GNode × Int) (cp' : Player),
        undo_last_move g = (g', true) → g.move_history.getLast? = some e →
        get_current_player g' = some cp' → cp'.player_id = histPid e) := by
  intro g hre
  have hinv := reachable_GInv hre
  constructor
  · intro n1 n2 g' cp cp' hmm hplay' hcp hcp'
    have hst : g.game_state = GameState.PLAYING := by
      by_contra hn
      rw [make_move_not_playing hn, Prod.mk.injEq] at hmm
      simp at hmm
    obtain ⟨a, b, hpl, ha1, hb2, hget, hcase⟩ :=
      make_move_nonwin_spec hinv hst hmm hplay'
    rcases hcase with ⟨hpar, hidx0, hcpa, hgw⟩ | ⟨hpar, hidx1, hcpb, hgw⟩
    · rw [hcp] at hcpa
      obtain rfl : a = cp := (Option.some.inj hcpa).symm
      subst hgw
      have hgcp : get_current_player
          ({ g with
            board := { g.board with
              edges := dictSet g.board.edges (normalize_edge n1 n2)
                (player_state_of a.player_id) }
            move_history := g.move_history ++ [(n1, n2, a.player_id)]
            players := [{ a with moves_made := a.moves_made + 1 }, b]
            current_player_index := 1 }) = some b := by
        unfold get_current_player
        rw [if_neg (by simp [hst])]
        rfl
      rw [hgcp] at hcp'
      obtain rfl : cp' = b := (Option.some.inj hcp').symm
      refine ⟨Or.inl ha1, ?_⟩
      rw [hb2, ha1]
      decide
    · rw [hcp] at hcpb
      obtain rfl : b = cp := (Option.some.inj hcpb).symm
      subst hgw
      have hgcp : get_current_player
          ({ g with
            board := { g.board with
              edges := dictSet g.board.edges (normalize_edge n1 n2)
                (player_state_of b.player_id) }
            move_history := g.move_history ++ [(n1, n2, b.player_id)]
            players := [a, { b with moves_made := b.moves_made + 1 }]
            current_player_index := 0 }) = some a := by
        unfold get_current_player
        rw [if_neg (by simp [hst])]
        rfl
      rw [hgcp] at hcp'
      obtain rfl : cp' = a := (Option.some.inj hcp').symm
      refine ⟨Or.inr hb2, ?_⟩
      rw [hb2, ha1]
      decide
  · intro g' e cp' hund hlast hcp'
    have hcond : ¬ (g.move_history = [] ∨ g.game_state = GameState.FINISHED) := by
      intro hcd
      rw [undo_noop hcd, Prod.mk.injEq] at hund
      simp at hund
    have hne : g.move_history ≠ [] := by
      intro hh
      exact hcond (Or.inl hh)
    have hnf : g.game_state ≠ GameState.FINISHED := by
      intro hh
      exact hcond (Or.inr hh)
    have hst : g.game_state = GameState.PLAYING := hinv.state_ok.resolve_right hnf
    obtain ⟨a, b, hpl, ha1, hb2, _, _⟩ := hinv.players_ok
    have hidx := hinv.turn_parity hst
    have hlen1 : 1 ≤ g.move_history.length := by
      have := List.length_pos.mpr hne
      omega
    have hlast' := List.getLast?_eq_getLast g.move_history hne
    have he : e = g.move_history.getLast hne := by
      rw [hlast] at hlast'
      exact Option.some.inj hlast'
    have hpid : histPid e = if (g.move_history.length - 1) % 2 = 0 then 1 else 2 := by
      rw [he, List.getLast_eq_getElem]
      exact hinv.hist_alt _ (by omega)
    rw [undo_char hcond hlast, Prod.mk.injEq] at hund
    obtain ⟨hg', -⟩ := hund
    by_cases hpp : (g.move_history.length - 1) % 2 = 0
    · have hpid1 : histPid e = 1 := by rw [hpid, if_pos hpp]
      have hidx1 : g.current_player_index = 1 := by
        rw [hidx]
        have hll : g.move_history.length % 2 = 1 := by omega
        rw [hll]
        rfl
      have hdec : decFirst g.players (histPid e) =
          [{ a with moves_made := a.moves_made - 1 }, b] := by
        rw [hpl, hpid1]
        simp [decFirst, ha1]
      rw [← hg'] at hcp'
      have hgcp : get_current_player
          ({ g with
            board := { g.board with
              edges := dictSet g.board.edges (histEdge e) EdgeState.EMPTY }
            move_history := g.move_history.dropLast
            players := decFirst g.players (histPid e)
            current_player_index := 1 - g.current_player_index }) =
          some { a with moves_made := a.moves_made - 1 } := by
        unfold get_current_player
        rw [if_neg (by simp [hst, hdec])]
        show pyGet (decFirst g.players (histPid e)) (1 - g.current_player_index) = _
        rw [hdec, hidx1]
        rfl
      rw [hgcp] at hcp'
      obtain rfl : cp' = _ := (Option.some.inj hcp').symm
      rw [hpid1]
      exact ha1
    · have hpid2 : histPid e = 2 := by rw [hpid, if_neg hpp]
      have hidx0 : g.current_player_index = 0 := by
        rw [hidx]
        have hll : g.move_history.length % 2 = 0 := by omega
        rw [hll]
        rfl
      have hdec : decFirst g.players (histPid e) =
          [a, { b with moves_made := b.moves_made - 1 }] := by
        rw [hpl, hpid2]
        have hna : ¬ a.player_id = 2 := by rw [ha1]; decide
        simp [decFirst, hna, hb2]
      rw [← hg'] at hcp'
      have hgcp : get_current_player
          ({ g with
            board := { g.board with
              edges := dictSet g.board.edges (histEdge e) EdgeState.EMPTY }
            move_history := g.move_history.dropLast
            players := decFirst g.players (histPid e)
            current_player_index := 1 - g.current_player_index }) =
          some { b with moves_made := b.moves_made - 1 } := by
        unfold get_current_player
        rw [if_neg (by simp [hst, hdec])]
        show pyGet (decFirst g.players (histPid e)) (1 - g.current_player_index) = _
        rw [hdec, hidx0]
        rfl
      rw [hgcp] at hcp'
      obtain rfl : cp' = _ := (Option.some.inj hcp').symm
      rw [hpid2]
      exact hb2

/-- C6 witness: on the concrete 3x3 game, after the first non-winning move the
turn passes from player 1 to player 2. -/
theorem bridgeit_C6_witness :
    (pAlice.player_id = 1 ∨ pAlice.player_id = 2) ∧
      pBob.player_id = 3 - pAlice.player_id :=
  (bridgeit_C6_turn_alternation game0 reachable_game0).1 (0, 0) (1, 0) game1
    pAlice pBob (by decide) (by decide) (by decide) (by decide)

/-- C9: in every reachable engine state the history length equals the sum of
the two move counters and the number of edges owned by either player; since
reachable states are closed under makeMove, undoLastMove and resetGame, the
invariant is preserved by those operations. -/
theorem bridgeit_C9_history_invariant :
    ∀ g : BridgeItGame, Reachable g →
      (g.move_history.length : Int) = (g.players.map Player.moves_made).sum ∧
      g.move_history.length = countOwned g.board := by
  intro g hre
  have hinv := reachable_GInv hre
  obtain ⟨a, b, hpl, _, _, hma, hmb⟩ := hinv.players_ok
  refine ⟨?_, hinv.count_ok.symm⟩
  rw [hpl]
  simp only [List.map_cons, List.map_nil, List.sum_cons, List.sum_nil, add_zero]
  rw [hma, hmb]
  have hsplit : g.move_history.length =
      g.move_history.countP (fun e => decide (histPid e = 1)) +
      g.move_history.countP (fun e => decide (histPid e = 2)) := by
    rw [List.length_eq_countP_add_countP (fun e => decide (histPid e = 1))]
    congr 1
    refine List.countP_congr ?_
    intro x hx
    obtain ⟨i, hi, hix⟩ := List.getElem_of_mem hx
    have halt := hinv.hist_alt i hi
    rw [hix] at halt
    by_cases hpp : i % 2 = 0
    · rw [if_pos hpp] at halt
      simp [halt]
    · rw [if_neg hpp] at halt
      simp [halt]
  omega

/-- C9 witness: the invariant instantiated at the reachable state after two
placements. -/
theorem bridgeit_C9_witness :
    (game2.move_history.length : Int) = (game2.players.map Player.moves_made).sum ∧
    game2.move_history.length = countOwned game2.board :=
  bridgeit_C9_history_invariant game2 reachable_game2

/-- C2: a successful makeMove that completes a winning path appends the move,
increments the mover counter, sets the winner to the mover, moves the state to
Finished and leaves the turn index unchanged; concretely, on the 3x3 board the
placements (0,0)-(1,0) and (1,0)-(2,0) by player 1 (with (0,1)-(0,2) by player
2 in between) end the game: hasWinningPath(1) holds, the winner is player 1,
the state is Finished and every later makeMove returns false. -/
theorem bridgeit_C2_winning_move :
    (∀ (g : BridgeItGame) (n1 n2 : GNode) (cp : Player),
      g.game_state = GameState.PLAYING →
      get_current_player g = some cp →
      is_valid_move g.board n1 n2 = true →
      has_winning_path { g.board with
        edges := dictSet g.board.edges (normalize_edge n1 n2)
          (player_state_of cp.player_id) } cp.player_id = true →
      make_move g n1 n2 =
        ({ g with
            board := { g.board with
              edges := dictSet g.board.edges (normalize_edge n1 n2)
                (player_state_of cp.player_id) }
            move_history := g.move_history ++ [(n1, n2, cp.player_id)]
            players := pySet g.players g.current_player_index
              { cp with moves_made := cp.moves_made + 1 }
            winner := some { cp with moves_made := cp.moves_made + 1 }
            game_state := GameState.FINISHED }, true)) ∧
    (make_move game2 (1, 0) (2, 0)).2 = true ∧
    has_winning_path game3.board 1 = true ∧
    game3.winner.map Player.player_id = some 1 ∧
    game3.game_state = GameState.FINISHED ∧
    game3.current_player_index = game2.current_player_index ∧
    game3.move_history = game2.move_history ++ [((1, 0), (2, 0), 1)] ∧
    (∀ x y : GNode, (make_move game3 x y).2 = false) := by
  refine ⟨?_, by decide, by decide, by decide, by decide, by decide, by decide, ?_⟩
  · intro g n1 n2 cp hst hcp hv hw
    rw [make_move_valid hst hcp hv, if_pos hw]
  · intro x y
    have hst : game3.game_state ≠ GameState.PLAYING := by decide
    rw [make_move_not_playing hst]

/-- C2 witness: the general winning-move clause applied to the concrete third
placement of the scenario. -/
theorem bridgeit_C2_witness :
    make_move game2 (1, 0) (2, 0) =
      ({ game2 with
          board := { game2.board with
            edges := dictSet game2.board.edges (normalize_edge (1, 0) (2, 0))
              (player_state_of
                (⟨1, "Alice", "red", PlayerType.HUMAN, 1⟩ : Player).player_id) }
          move_history := game2.move_history ++
            [((1, 0), (2, 0),
              (⟨1, "Alice", "red", PlayerType.HUMAN, 1⟩ : Player).player_id)]
          players := pySet game2.players game2.current_player_index
            { (⟨1, "Alice", "red", PlayerType.HUMAN, 1⟩ : Player) with
              moves_made :=
                (⟨1, "Alice", "red", PlayerType.HUMAN, 1⟩ : Player).moves_made + 1 }
          winner := some { (⟨1, "Alice", "red", PlayerType.HUMAN, 1⟩ : Player) with
            moves_made :=
              (⟨1, "Alice", "red", PlayerType.HUMAN, 1⟩ : Player).moves_made + 1 }
          game_state := GameState.FINISHED }, true) :=
  bridgeit_C2_winning_move.1 game2 (1, 0) (2, 0)
    ⟨1, "Alice", "red", PlayerType.HUMAN, 1⟩ (by decide) (by decide) (by decide)
    (by decide)

/-- C10 witness: player id 0 behaves exactly as player 2 on the fresh 3x3
board. -/
theorem bridgeit_C10_witness :
    place_bridge (mkBoard 3 3) (0, 0) (0, 1) 0 =
      place_bridge (mkBoard 3 3) (0, 0) (0, 1) 2 ∧
    get_player_edges (mkBoard 3 3) 0 = get_player_edges (mkBoard 3 3) 2 :=
  ⟨((bridgeit_C10_other_ids 0 (by decide)).1 (mkBoard 3 3) (0, 0) (0, 1)).1,
   (bridgeit_C10_other_ids 0 (by decide)).2 (mkBoard 3 3)⟩
